import Mathlib

/-!
# OUI vendor table generator (`magefiles/gen.go`)

A shallow embedding of the build step of `shadowy-pycoder/oui`: the vendor-name
normalisation pipeline and the table builder `newTemplateData`. The runtime lookup
(`Vendor`, `VendorFromMAC`, `VendorWithMAC`) is not among the sources; it is modelled from
the specification and the examples of `oui_test.go`, on the table the generator writes.

Conventions of the embedding.

* A Go `string` is a `Str`, the list of its code points (well-formed UTF-8 text).
* A panic is the `none` of `Option`.
* The Go standard library and `golang.org/x/text` are not part of the repository.
  Their behaviour is written out here from their documented semantics wherever it
  is finite (`strings`, `strconv.ParseInt`, `regexp` on the patterns used, the
  insertion sort behind `sort.Slice`, the title caser on ASCII text). The Unicode
  tables they consult for code points outside ASCII are the fields of `GoText`.
-/

namespace Oui

/-- A Go string, as the sequence of its code points. -/
abbrev Str := List Char

/-- What the libraries look up in Unicode tables for text outside ASCII. -/
structure GoText where
  /-- The function `unicode.ToLower` on a code point that is not ASCII. -/
  toLowerRune : Char → Char
  /-- The function `cases.Title(language.English).String` on a string that has a code point
  outside ASCII. -/
  titleNonASCII : Str → Str

/-- A table that leaves text outside ASCII alone; the concrete evaluations below are all on
ASCII text, where the table is not consulted. -/
def plainText : GoText := ⟨fun c => c, fun s => s⟩

/-! ## `strings` and `unicode` -/

/-- The ASCII capital letters. -/
def isUpper (c : Char) : Bool := 65 ≤ c.toNat && c.toNat ≤ 90

/-- The ASCII small letters. -/
def isLower (c : Char) : Bool := 97 ≤ c.toNat && c.toNat ≤ 122

/-- The ASCII letters. -/
def isLetter (c : Char) : Bool := isUpper c || isLower c

/-- The ASCII digits. -/
def isDigit (c : Char) : Bool := 48 ≤ c.toNat && c.toNat ≤ 57

/-- An ASCII capital letter as a small letter, any other code point unchanged. -/
def lower (c : Char) : Char := if isUpper c then Char.ofNat (c.toNat + 32) else c

/-- An ASCII small letter as a capital letter, any other code point unchanged. -/
def upper (c : Char) : Char := if isLower c then Char.ofNat (c.toNat - 32) else c

/-- The predicate `unicode.IsSpace`: the Unicode White_Space code points. -/
def isSpace (c : Char) : Bool :=
  let n := c.toNat
  n == 0x20 || (0x09 ≤ n && n ≤ 0x0D) || n == 0x85 || n == 0xA0 || n == 0x1680 ||
    (0x2000 ≤ n && n ≤ 0x200A) || n == 0x2028 || n == 0x2029 || n == 0x202F ||
    n == 0x205F || n == 0x3000

/-- The function `strings.ToLower`: `unicode.ToLower` on every code point. -/
def ToLower (U : GoText) (s : Str) : Str :=
  s.map fun c => if c.toNat < 128 then lower c else U.toLowerRune c

/-- The function `strings.TrimSpace`. -/
def TrimSpace (s : Str) : Str :=
  ((s.dropWhile isSpace).reverse.dropWhile isSpace).reverse

/-- Removal of every occurrence of one character: `strings.ReplaceAll(s, string(c), "")`. -/
def removeChar (c : Char) (s : Str) : Str :=
  s.filter fun d => d != c

/-- The loop of `strings.Fields`: `cur` is the field being read, in reverse. -/
def fieldsAux : Str → Str → List Str
  | cur, [] => if cur.isEmpty then [] else [cur.reverse]
  | cur, c :: s =>
    if isSpace c then
      (if cur.isEmpty then fieldsAux [] s else cur.reverse :: fieldsAux [] s)
    else fieldsAux (c :: cur) s

/-- The function `strings.Fields`: the maximal runs of code points that are not white space. -/
def Fields (s : Str) : List Str := fieldsAux [] s

/-- The function `strings.Join(fields, " ")`. -/
def joinSpace : List Str → Str
  | [] => []
  | [w] => w
  | w :: ws => w ++ ' ' :: joinSpace ws

/-- First pair, in argument order, whose old string is a prefix of `s`: the lookup of the
generic `strings.Replacer`, whose priorities follow the order of the arguments. -/
def replacerLookup : List (Str × Str) → Str → Option (Str × Str)
  | [], _ => none
  | (old, new) :: rest, s => if old.isPrefixOf s then some (old, new) else replacerLookup rest s

/-- The scan of `(*strings.Replacer).Replace`: one pass from left to right, no overlapping
matches, replaced text is not scanned again. `skip` counts the code points of the current
match still to be passed over. All old strings here are non-empty. -/
def replacerScan (pairs : List (Str × Str)) : Nat → Str → Str
  | _, [] => []
  | skip + 1, _ :: s => replacerScan pairs skip s
  | 0, c :: s =>
    match replacerLookup pairs (c :: s) with
    | some (old, new) => new ++ replacerScan pairs (old.length - 1) s
    | none => c :: replacerScan pairs 0 s

/-- The argument list of `sr = strings.NewReplacer(...)`, lines 40-83, as (old, new) pairs. -/
def srPairs : List (String × String) :=
  [(",.", "/"), (".,", "/"), (". ,", "/"), (", .", "/"), (" . ", "/"), (". ", "/"),
   (" .", "/"), (".", "/"), (" , ", "/"), (", ", "/"), (" ,", "/"), (",", "/"),
   (" a ", " "), (" & ", " "), ("&", " "), ("(", ""), (")", ""), ("'", " "),
   ("-", " "), ("*", ""), ("/", "")]

/-- The replacer `sr`. -/
def sr : List (Str × Str) := srPairs.map fun p => (p.1.toList, p.2.toList)

/-- The call `sr.Replace(s)`. -/
def srReplace (s : Str) : Str := replacerScan sr 0 s

/-! ## `regexp` on the patterns of the generator -/

/-- One-character matchers of the patterns. -/
inductive Atom where
  /-- A literal under `(?i)`. -/
  | fold (c : Char)
  /-- The class `\s`. -/
  | space
deriving DecidableEq, Repr

/-- Case folding of `regexp/syntax` under `(?i)`, for the literals of the patterns (ASCII and
`ü`): a literal matches every code point of its `unicode.SimpleFold` orbit. The orbits of `k`
and `s` have a third member (KELVIN SIGN and LATIN SMALL LETTER LONG S). -/
def foldMatch (p c : Char) : Bool :=
  c == p || c == upper p || c == lower p ||
    (lower p == 'k' && c.toNat == 0x212A) || (lower p == 's' && c.toNat == 0x17F) ||
    (p.toNat == 0xFC && c.toNat == 0xDC)

/-- Whether an atom accepts a code point; `\s` is `[\t\n\f\r ]`. -/
def Atom.test : Atom → Char → Bool
  | .fold p, c => foldMatch p c
  | .space, c => c == '\t' || c == '\n' || c.toNat == 0x0C || c == '\r' || c == ' '

/-- The regular expressions used by the generator. -/
inductive Regex where
  | eps
  | atom (a : Atom)
  | seq (a b : Regex)
  | alt (a b : Regex)
  /-- Greedy `a?`. -/
  | opt (a : Regex)
  /-- Greedy `a*` of a one-character matcher. -/
  | star (a : Atom)
  /-- Greedy `a+` of a one-character matcher. -/
  | plus (a : Atom)
  /-- The assertion `\b`, an ASCII word boundary. -/
  | wordBoundary
  /-- The assertion `$` without the `m` flag: end of text. -/
  | endText
deriving DecidableEq, Repr

/-- The class `\w` of `regexp`: `[0-9A-Za-z_]`. -/
def isWordChar (c : Char) : Bool :=
  isLetter c || isDigit c || c == '_'

/-- Whether the position before the head of `s` is an ASCII word boundary; `prevWord` tells
whether there is a code point before it and that code point is of class `\w`. -/
def atWordBoundary (prevWord : Bool) (s : Str) : Bool :=
  prevWord != (match s with | c :: _ => isWordChar c | [] => false)

/-- All ways a greedy `a*` can match at the head of `s`, longest first. -/
def starRun (a : Atom) : Bool → Str → List (Bool × Str)
  | p, [] => [(p, [])]
  | p, c :: s => if a.test c then starRun a (isWordChar c) s ++ [(p, c :: s)] else [(p, c :: s)]

/-- All ways the expression can match at the head of `s`, in the order a backtracking search
finds them (Go's leftmost-first semantics picks the first). A result is the text after the
match, with the flag that its last code point before that text is of class `\w`; the flag `p`
says the same of the text before `s`. -/
def Regex.run : Regex → Bool → Str → List (Bool × Str)
  | .eps, p, s => [(p, s)]
  | .atom _, _, [] => []
  | .atom a, _, c :: s => if a.test c then [(isWordChar c, s)] else []
  | .seq a b, p, s => (a.run p s).flatMap fun r => b.run r.1 r.2
  | .alt a b, p, s => a.run p s ++ b.run p s
  | .opt a, p, s => a.run p s ++ [(p, s)]
  | .star a, p, s => starRun a p s
  | .plus _, _, [] => []
  | .plus a, _, c :: s => if a.test c then starRun a (isWordChar c) s else []
  | .wordBoundary, p, s => if atWordBoundary p s then [(p, s)] else []
  | .endText, p, s => if s.isEmpty then [(p, s)] else []

/-- The match that starts at the head of `s`, if there is one: the text after it. -/
def Regex.matchAt (r : Regex) (prevWord : Bool) (s : Str) : Option Str :=
  ((r.run prevWord s).head?).map fun m => m.2

/-- The scan of `ReplaceAllString(s, "")` and `ReplaceAll(b, []byte{})`: the leftmost match is
deleted and the search resumes at its end. `skip` counts the code points of the current
match still to be deleted; after an empty match the scan moves on by one code point. -/
def Regex.deleteScan (r : Regex) : Nat → Bool → Str → Str
  | _, _, [] => []
  | skip + 1, _, c :: s => r.deleteScan skip (isWordChar c) s
  | 0, p, c :: s =>
    match r.matchAt p (c :: s) with
    | some rest =>
      if rest.length ≤ s.length then r.deleteScan (s.length - rest.length) (isWordChar c) s
      else c :: r.deleteScan 0 (isWordChar c) s
    | none => c :: r.deleteScan 0 (isWordChar c) s

/-- The call `re.ReplaceAllString(s, "")`. -/
def Regex.deleteAll (r : Regex) (s : Str) : Str := r.deleteScan 0 false s

/-- Concatenation of a list of expressions. -/
def Regex.cat : List Regex → Regex
  | [] => .eps
  | [r] => r
  | r :: rs => .seq r (Regex.cat rs)

/-- Alternation of a non-empty list of expressions, in order. -/
def Regex.alts : List Regex → Regex
  | [] => .eps
  | [r] => r
  | r :: rs => .alt r (Regex.alts rs)

/-- Reads the syntax used by the entries of `terms`: literals, `x?`, `x+` and `\b`. -/
def parseTerm : Str → List Regex
  | [] => []
  | '\\' :: 'b' :: rest => .wordBoundary :: parseTerm rest
  | c :: '?' :: rest => .opt (.atom (.fold c)) :: parseTerm rest
  | c :: '+' :: rest => .plus (.fold c) :: parseTerm rest
  | c :: rest => .atom (.fold c) :: parseTerm rest

/-- The word list `terms`, lines 86-128. -/
def terms : List String :=
  ["a +s\\b", "ab\\b", "ag\\b", "b ?v\\b", "closed joint stock company\\b", "co\\b",
   "company\\b", "corp\\b", "corporation\\b", "corporate\\b", "de c ?v\\b", "gmbh\\b",
   "holding\\b", "inc\\b", "incorporated\\b", "jsc\\b", "kg\\b", "k k\\b", "limited\\b",
   "llc\\b", "ltd\\b", "n ?v\\b", "oao\\b", "of\\b", "open joint stock company\\b", "ooo\\b",
   "oü\\b", "oy\\b", "oyj\\b", "plc\\b", "pty\\b", "pvt\\b", "s ?a ?r ?l\\b", "s ?a\\b",
   "s ?p ?a\\b", "sp ?k\\b", "s ?r ?l\\b", "systems\\b", "\\bthe\\b", "zao\\b",
   "z ?o ?o\\b"]

/-- The expression `pattern`, line 130: `(?i)\b(?:` + the terms joined by `|` + `)`. -/
def pattern : Regex :=
  .seq .wordBoundary (Regex.alts (terms.map fun t => Regex.cat (parseTerm t.toList)))

/-- A literal word under `(?i)`. -/
def word (w : String) : Regex := Regex.cat (w.toList.map fun c => .atom (.fold c))

/-- The shape of the three suffix expressions: `(?i),?\s*(w1|w2|...)\.?$`. -/
def suffixRegex (ws : List String) : Regex :=
  Regex.cat [.opt (.atom (.fold ',')), .star .space, Regex.alts (ws.map word),
    .opt (.atom (.fold '.')), .endText]

/-- The expression `llcRegex`, line 264. -/
def llcRegex : Regex := suffixRegex ["llc", "ltd", "limited", "inc", "incorporated"]

/-- The expression `coRegex`, line 265. -/
def coRegex : Regex := suffixRegex ["co", "company", "corp", "corporation"]

/-- The expression `gmbhRegex`, line 266. -/
def gmbhRegex : Regex := suffixRegex ["gmbh"]

/-- The function `simplifyName`, lines 269-277. -/
def simplifyName (name : Str) : Str :=
  let b := name
  let b := llcRegex.deleteAll b
  let b := coRegex.deleteAll b
  let b := gmbhRegex.deleteAll b
  b

/-! ## The title caser on ASCII text -/

/-- Cased code points of ASCII: the letters. -/
def isCased (c : Char) : Bool := isLetter c

/-- Code points of ASCII with word-break class MidLetter, MidNumLet or Single_Quote. -/
def isMid (c : Char) : Bool := c == '\'' || c == '.' || c == ':'

/-- Code points of ASCII at which the title caser ends a word: all but letters, digits, the
underscore and the mid-word punctuation. -/
def isBreak (c : Char) : Bool := !(isLetter c || isDigit c || c == '_' || isMid c)

/-- The loop of `titleCaser.Transform` on ASCII text: the first cased letter of a word is
upper-cased, the later ones lower-cased; a word ends at a break or at two mid-word
punctuation marks in a row. -/
def titleLoop : Bool → Bool → Str → Str
  | _, _, [] => []
  | isMidWord, wasMid, c :: s =>
    let isMidWord := if wasMid && isMid c then false else isMidWord
    if isCased c then
      (if isMidWord then lower c else upper c) :: titleLoop true false s
    else
      c :: titleLoop (if isBreak c then false else isMidWord) (isMid c) s

/-- The call `caser.String(s)` with `caser = cases.Title(language.English)`, line 38. -/
def caserString (U : GoText) (s : Str) : Str :=
  if s.all fun c => c.toNat < 128 then titleLoop false false s else U.titleNonASCII s

/-! ## The normalisation pipeline -/

/-- Lines 228-235 of `newTemplateData`: the normalised vendor name of a raw name field. -/
def normalize (U : GoText) (raw : Str) : Str :=
  let v := TrimSpace raw
  let v := removeChar '"' v
  let v := simplifyName v
  let v := pattern.deleteAll v
  let v := srReplace v
  let v := joinSpace (Fields v)
  let v := caserString U v
  TrimSpace (removeChar '/' v)

/-! ## The table builder -/

/-- The type `OUI`, line 137. -/
abbrev OUI := Str

/-- The struct `entry`, lines 139-143. -/
structure entry where
  OUI : OUI
  VendorID : Int
  Vendor : Str
deriving DecidableEq, Repr

/-- The struct `templateData`, lines 132-135. -/
structure templateData where
  Entries : List entry
  Vendors : List Str
deriving DecidableEq, Repr

/-- Value of a hexadecimal digit, as read by `strconv.ParseUint` in base 16. -/
def hexDigit (c : Char) : Option Nat :=
  if '0' ≤ c ∧ c ≤ '9' then some (c.toNat - '0'.toNat)
  else if 'a' ≤ c ∧ c ≤ 'f' then some (c.toNat - 'a'.toNat + 10)
  else if 'A' ≤ c ∧ c ≤ 'F' then some (c.toNat - 'A'.toNat + 10)
  else none

/-- The digit loop of `strconv.ParseUint(s, 16, 64)`, without its range check: the value of
the digits read so far is `n`. -/
def parseDigits : Nat → Str → Option Nat
  | n, [] => some n
  | n, c :: s => (hexDigit c).bind fun d => parseDigits (16 * n + d) s

/-- The function `strconv.ParseInt(s, 16, 64)`: an optional sign and at least one hexadecimal
digit, the value within the range of `int64`; `none` is any error. -/
def ParseInt (s : Str) : Option Int :=
  let (neg, digits) :=
    match s with
    | '+' :: t => (false, t)
    | '-' :: t => (true, t)
    | t => (false, t)
  if digits.isEmpty then none
  else
    (parseDigits 0 digits).bind fun un =>
      if neg then (if un ≤ 2 ^ 63 then some (-(un : Int)) else none)
      else (if un < 2 ^ 63 then some (un : Int) else none)

/-- The method `OUI.Int`, lines 149-156: it panics when the string does not parse. -/
def OUI.Int (o : OUI) : Option Int := ParseInt o

/-- The comparison passed to `sort.Slice`, line 254; the left operand is evaluated first. -/
def entryLess (a b : entry) : Option Bool :=
  (OUI.Int a.OUI).bind fun x => (OUI.Int b.OUI).bind fun y => some (decide (x < y))

/-- The inner loop of the insertion sort of package `sort`: `x` is `data[j]`, the list is
`data[a..j-1]` from right to left. -/
def insertLess {α : Type} (less : α → α → Option Bool) (x : α) : List α → Option (List α)
  | [] => some [x]
  | y :: ys =>
    (less x y).bind fun b =>
      if b then (insertLess less x ys).map fun r => y :: r else some (x :: y :: ys)

/-- The outer loop of the insertion sort: `done` is the sorted prefix from right to left. -/
def insertionSort {α : Type} (less : α → α → Option Bool) : List α → List α → Option (List α)
  | done, [] => some done.reverse
  | done, x :: xs => (insertLess less x done).bind fun done' => insertionSort less done' xs

/-- The call `sort.Slice(data, less)` with a comparison that may panic. The library sorts a
slice of at most 12 elements by exactly this insertion sort, and a slice of fewer than two
elements without calling `less`; on longer slices it runs pattern-defeating quicksort, which
also returns a permutation ordered by `less`. -/
def sortSlice {α : Type} (less : α → α → Option Bool) (data : List α) : Option (List α) :=
  insertionSort less [] data

/-- One result of `(*csv.Reader).Read` before end of file: a record or an error. -/
inductive ReadResult where
  | record (fields : List Str)
  | error
deriving DecidableEq, Repr

/-- The local variables of `newTemplateData` that live across iterations. The two Go maps are
association lists, newest binding first. -/
structure loopState where
  entries : List entry
  vendors : List Str
  ouiMap : List (Str × Str)
  vendorMap : List (Str × Int)
  id : Int
deriving DecidableEq, Repr

/-- The variables before the first iteration, lines 201-216. -/
def loopInit : loopState := ⟨[], [], [], [], 0⟩

/-- Lines 237-250: a record whose OUI is already registered is skipped; otherwise the OUI is
registered, a new vendor name gets the next id, and the entry is appended. -/
def register (st : loopState) (o v : Str) : loopState :=
  match st.ouiMap.lookup o with
  | some _ => st
  | none =>
    let ouiMap := (o, v) :: st.ouiMap
    let st1 : loopState :=
      match st.vendorMap.lookup v with
      | some _ => { st with ouiMap := ouiMap }
      | none =>
        { st with ouiMap := ouiMap, vendors := st.vendors ++ [v],
                  vendorMap := (v, st.id) :: st.vendorMap, id := st.id + 1 }
    { st1 with entries := st1.entries ++ [⟨o, (st1.vendorMap.lookup v).getD 0, v⟩] }

/-- One iteration of the loop on a record, lines 226-250. Indexing a record that is too
short panics. -/
def loopBody (U : GoText) (st : loopState) (record : List Str) : Option loopState :=
  record[1]?.bind fun f1 =>
    let o := ToLower U f1
    record[2]?.bind fun f2 =>
      let v := normalize U f2
      some (register st o v)

/-- The loop of lines 216-251 over the results of the successive reads up to end of file. -/
def loop (U : GoText) : List ReadResult → loopState → Option loopState
  | [], st => some st
  | .error :: _, _ => none
  | .record r :: rest, st => (loopBody U st r).bind fun st' => loop U rest st'

/-- Lines 200-251 of `newTemplateData`: the header is read and dropped, the rows are
collected. The input is the list of results of `c.Read()` before `io.EOF`. -/
def collect (U : GoText) : List ReadResult → Option loopState
  | [] => none
  | .error :: _ => none
  | .record _ :: rows => loop U rows loopInit

/-- The function `newTemplateData`, lines 200-261. -/
def newTemplateData (U : GoText) (input : List ReadResult) : Option templateData :=
  (collect U input).bind fun st =>
    (sortSlice entryLess st.entries).map fun entries =>
      { Entries := entries, Vendors := st.vendors }

/-! ## Vocabulary of the specification -/

/-- The lowercased OUI field of a row, when the row has one. -/
def ouiField (U : GoText) : ReadResult → Option Str
  | .record r => r[1]?.map (ToLower U)
  | .error => none

/-- The normalised vendor name of a row, when the row has a name field. -/
def nameField (U : GoText) : ReadResult → Option Str
  | .record r => r[2]?.map (normalize U)
  | .error => none

/-- The distinct elements of a list, in order of first appearance. -/
def distinctInOrder : List Str → List Str
  | [] => []
  | x :: xs => x :: (distinctInOrder xs).filter fun y => y != x

/-- The lowercased OUI and the normalised name of a row that has both fields. -/
def recordOf (U : GoText) (r : ReadResult) : Option (Str × Str) :=
  (ouiField U r).bind fun o => (nameField U r).map fun v => (o, v)

/-- The (OUI, name) pairs of the rows of a stream, in stream order. -/
def records (U : GoText) (rows : List ReadResult) : List (Str × Str) :=
  rows.filterMap (recordOf U)

/-- The records that are the first of their OUI, in stream order. -/
def firstPerKey : List (Str × Str) → List (Str × Str)
  | [] => []
  | r :: rs => r :: (firstPerKey rs).filter fun q => q.1 != r.1

/-- Order of two OUI strings by numeric value, both of them parsing. -/
def ouiLe (a b : OUI) : Prop :=
  ∃ x y, OUI.Int a = some x ∧ OUI.Int b = some y ∧ x ≤ y

/-- A data row of three fields, the way the registry file has them. -/
def row (assignment oui name : String) : ReadResult :=
  .record [assignment.toList, oui.toList, name.toList]

/-- The loop invariant of `newTemplateData`, after the records `recs` have been read. -/
structure LoopInv (recs : List (Str × Str)) (st : loopState) : Prop where
  ents : st.entries.map (fun e => (e.OUI, e.Vendor)) = firstPerKey recs
  vend : st.vendors = distinctInOrder (st.entries.map fun e => e.Vendor)
  ids : ∀ e ∈ st.entries, 0 ≤ e.VendorID ∧ st.vendors[e.VendorID.toNat]? = some e.Vendor
  idlen : st.id = (st.vendors.length : Int)
  omap : ∀ o, st.ouiMap.lookup o = none ↔ o ∉ st.entries.map fun e => e.OUI
  vmap : ∀ v, (st.vendorMap.lookup v = none ↔ v ∉ st.vendors) ∧
    ∀ i, st.vendorMap.lookup v = some i → 0 ≤ i ∧ st.vendors[i.toNat]? = some v

/-- The head of the registry file and three rows, two of them for the same OUI. -/
def sampleInput : List ReadResult :=
  [row "Registry" "Assignment" "Organization Name", row "MA-L" "00000F" "NEXT, INC.",
   row "MA-L" "00000f" "Other", row "MA-L" "00000E" "Fujitsu Limited"]

/-- The table built from `sampleInput`. -/
def sampleTable : templateData :=
  ⟨[⟨"00000e".toList, 1, "Fujitsu".toList⟩, ⟨"00000f".toList, 0, "Next".toList⟩],
    ["Next".toList, "Fujitsu".toList]⟩

/-- A stream in which the second row repeats the OUI of the first under another name. -/
def dupInput : List ReadResult :=
  [row "Registry" "Assignment" "Organization Name",
   row "MA-L" "080030" "NETWORK RESEARCH CORPORATION",
   row "MA-L" "080030" "ROYAL MELBOURNE INST OF TECH", row "MA-L" "080031" "CERN"]

/-- The table built from `dupInput`. -/
def dupTable : templateData :=
  ⟨[⟨"080030".toList, 0, "Network Research".toList⟩, ⟨"080031".toList, 1, "Cern".toList⟩],
    ["Network Research".toList, "Cern".toList]⟩

/-- A stream with a single data row, whose OUI field is not hexadecimal. -/
def badHexInput : List ReadResult :=
  [row "Registry" "Assignment" "Organization Name", row "MA-L" "00000G" "Acme"]

/-- The punctuation that the normalised name is claimed to be free of. -/
def strayPunctuation : List Char := ['"', ',', '.', '&', '(', ')', '\'', '-', '*', '/']

/-- The assumption on the title caser outside ASCII: it puts no stray punctuation into its
output that was not in its input. -/
def TitleAddsNoPunctuation (U : GoText) : Prop :=
  ∀ s c, c ∈ U.titleNonASCII s → c ∈ strayPunctuation → c ∈ s

/-- The ASCII letters and digits. -/
def isAlnum (c : Char) : Bool := isLetter c || isDigit c

/-- A name written with ASCII letters, ASCII digits and blanks only. -/
def PlainName (s : Str) : Prop := ∀ c ∈ s, isAlnum c = true ∨ c = ' '

/-- Whether the expression has a match that starts at the head of `s` or later. -/
def Regex.findFrom (r : Regex) : Bool → Str → Bool
  | p, [] => !(r.run p []).isEmpty
  | p, c :: s => !(r.run p (c :: s)).isEmpty || r.findFrom (isWordChar c) s

/-- The method `MatchString`: whether the text contains a match of the expression. -/
def Regex.MatchString (r : Regex) (s : Str) : Bool := r.findFrom false s

/-- Whether the expression matches the text `w` from its first to its last code point, `w`
standing alone. -/
def Regex.fullMatch (r : Regex) (w : Str) : Bool := (r.run false w).any fun m => m.2.isEmpty

/-- The word flag after the text `s` has been passed, `p` being the flag before it. -/
def lastWord : Bool → Str → Bool
  | p, [] => p
  | _, c :: s => lastWord (isWordChar c) s

/-- Whether the text starts with a code point of class `\w`. -/
def headWord : Str → Bool
  | [] => false
  | c :: _ => isWordChar c

/-- The expression has no `$`. -/
def Regex.noEnd : Regex → Bool
  | .seq a b => a.noEnd && b.noEnd
  | .alt a b => a.noEnd && b.noEnd
  | .opt a => a.noEnd
  | .endText => false
  | _ => true

/-- Every match of the expression ends with the assertion `\b`. -/
def Regex.endsAtBoundary : Regex → Bool
  | .wordBoundary => true
  | .seq _ b => b.endsAtBoundary
  | .alt a b => a.endsAtBoundary && b.endsAtBoundary
  | _ => false

/-- Every match of the expression has at least one code point. -/
def Regex.consumes : Regex → Bool
  | .atom _ => true
  | .plus _ => true
  | .seq a b => a.consumes || b.consumes
  | .alt a b => a.consumes && b.consumes
  | _ => false

/-- Every match of the expression starts with a literal that is an ASCII letter, after
assertions `\b` at most. -/
def Regex.needsLetter : Regex → Bool
  | .atom (.fold q) => isLetter q
  | .seq a b => a.needsLetter || (decide (a = .wordBoundary) && b.needsLetter)
  | .alt a b => a.needsLetter && b.needsLetter
  | _ => false

/-- The code point `b` is `a` or `a` in the other case. -/
def caseEq (a b : Char) : Prop := b = a ∨ b = upper a ∨ b = lower a

/-- Two results of the matcher that agree up to letter case. -/
def resEq (x y : Bool × Str) : Prop := x.1 = y.1 ∧ List.Forall₂ caseEq x.2 y.2

/-- A word of a clean name: not empty, ASCII letters and digits only, and left unchanged by
the title caser. -/
def TitleWord (w : Str) : Prop :=
  w ≠ [] ∧ (∀ c ∈ w, isAlnum c = true) ∧ titleLoop false false w = w

/-- Every match of the expression ends with the assertion `$`. -/
def Regex.endsAtEnd : Regex → Bool
  | .endText => true
  | .seq _ b => b.endsAtEnd
  | .alt a b => a.endsAtEnd && b.endsAtEnd
  | _ => false

/-- The text `m` is, from its first to its last code point, a match of the expression, for
some text before it. -/
def Regex.matchesAll (r : Regex) (m : Str) : Prop :=
  ∃ p, ((r.run p m).any fun x => x.2.isEmpty) = true

/-- A stream of a header and two rows whose OUI fields are different strings of the same
numeric value. -/
def tieInput : List ReadResult :=
  [row "Registry" "Assignment" "Organization Name", row "MA-L" "0b" "X", row "MA-L" "00b" "Y"]

/-- The table built from `tieInput`. -/
def tieTable : templateData :=
  ⟨[⟨"0b".toList, 0, "X".toList⟩, ⟨"00b".toList, 1, "Y".toList⟩], ["X".toList, "Y".toList]⟩

/-- The OUI field of a row as it was read, before it is lowercased. -/
def rawOuiField : ReadResult → Option Str
  | .record r => r[1]?
  | .error => none

/-- The hexadecimal digits, in either case. -/
def isHex (c : Char) : Bool := (hexDigit c).isSome

/-- The hexadecimal digits with small letters. -/
def isLowerHex (c : Char) : Bool :=
  (48 ≤ c.toNat && c.toNat ≤ 57) || (97 ≤ c.toNat && c.toNat ≤ 102)

/-- Modelled from the spec: the key derivation of the runtime lookup; the file `oui.go` with
`Vendor`, `VendorFromMAC` and `VendorWithMAC` is not among the sources. Section 4.3: "strip
delimiters, lowercase, take the first 6 hex characters; if fewer than 6 hex characters are
available, the lookup returns not found". The delimiters are the colon and the hyphen. -/
def ouiKey (U : GoText) (s : Str) : Option Str :=
  let t := ToLower U (s.filter fun c => c != ':' && c != '-')
  let key := t.take 6
  if key.length = 6 ∧ key.all isLowerHex then some key else none

/-- Modelled from the spec: the lookup `Vendor` of `oui.go`, which is not among the sources.
Section 4.3: "Look up the OUI in the VendorTable's OUI to vendorID map; if absent, return
empty; else return vendor-name sequence at that index". The table is the pair `ouis`,
`vendors` that `codeTemplate` (lines 22-37) writes from `Entries` and `Vendors`; `none` is an
index out of range. -/
def Vendor (U : GoText) (td : templateData) (s : Str) : Option Str :=
  match ouiKey U s with
  | none => some []
  | some key =>
    match td.Entries.find? fun e => e.OUI == key with
    | none => some []
    | some e => if 0 ≤ e.VendorID then td.Vendors[e.VendorID.toNat]? else none

/-- Modelled from the spec: a hardware address, "a 6-byte value" (section 4.3). -/
structure HardwareAddr where
  b0 : Fin 256
  b1 : Fin 256
  b2 : Fin 256
  b3 : Fin 256
  b4 : Fin 256
  b5 : Fin 256
deriving DecidableEq, Repr

/-- Modelled from the spec: the hexadecimal digit of a value below 16, with small letters
("hex-encoded, lowercase", section 4.3). -/
def hexChar (n : Nat) : Char := "0123456789abcdef".toList.getD n '0'

/-- Modelled from the spec: a byte as two hexadecimal digits with small letters. -/
def hexByte (b : Fin 256) : Str := [hexChar (b.val / 16), hexChar (b.val % 16)]

/-- Modelled from the spec: the lookup `VendorFromMAC` of `oui.go`, which is not among the
sources. Section 4.3: "Derive the OUI string from the first 3 bytes of the address
(hex-encoded, lowercase, no delimiters) and delegate to the string form". -/
def VendorFromMAC (U : GoText) (td : templateData) (mac : HardwareAddr) : Option Str :=
  Vendor U td (hexByte mac.b0 ++ hexByte mac.b1 ++ hexByte mac.b2)

/-- Modelled from the spec: "the colon-delimited hexadecimal representation of the address's
last 3 bytes" (section 4.3). -/
def macSuffix (mac : HardwareAddr) : Str :=
  hexByte mac.b3 ++ ':' :: hexByte mac.b4 ++ ':' :: hexByte mac.b5

/-- Modelled from the spec: the name as `VendorWithMAC` writes it, every blank as an
underscore. Section 8: "`VendorWithSuffix` on `00:05:ee:01:02:03` returns exactly
`Vanderbilt_International_Swe_01:02:03`", which `TestVendorWithMAC` (`oui_test.go`, lines
51-57) asserts, while the words of a normalized name are joined by blanks (`gen.go`,
line 233). -/
def blanksToUnderscores (v : Str) : Str :=
  v.map fun c => if c = ' ' then '_' else c

/-- Modelled from the spec: the function `VendorWithMAC` of `oui.go`, which is not among the
sources. Section 4.3: "Resolve the vendor name as above; if found and non-empty, append an
underscore followed by the colon-delimited hexadecimal representation of the address's last
3 bytes; if the vendor is not found or normalizes to empty, return empty". The name is
written with `blanksToUnderscores`, as section 8 and `TestVendorWithMAC` require. -/
def VendorWithMAC (U : GoText) (td : templateData) (mac : HardwareAddr) : Option Str :=
  (VendorFromMAC U td mac).map fun v =>
    if v.isEmpty then [] else blanksToUnderscores v ++ '_' :: macSuffix mac

/-- The key string with its hexadecimal capital letters as small letters. -/
def lowerHexLetters (s : Str) : Str :=
  s.map fun c => if 65 ≤ c.toNat ∧ c.toNat ≤ 70 then lower c else c

/-- The key string with its hexadecimal small letters as capital letters. -/
def upperHexLetters (s : Str) : Str :=
  s.map fun c => if 97 ≤ c.toNat ∧ c.toNat ≤ 102 then upper c else c

/-- The hexadecimal digits of a key string, once the delimiters are stripped and the letters
lowercased. -/
def keyHexDigits (U : GoText) (s : Str) : Str :=
  (ToLower U (s.filter fun c => c != ':' && c != '-')).filter isLowerHex

/-- The head of the registry file and the rows of the two addresses of `TestVendorWithMAC`,
with the organization names of the public registry. -/
def registryInput : List ReadResult :=
  [row "Registry" "Assignment" "Organization Name", row "MA-L" "00000F" "NEXT, INC.",
   row "MA-L" "0005EE" "Vanderbilt International (SWE) AB"]

/-- The table built from `registryInput`. -/
def registryTable : templateData :=
  ⟨[⟨"00000f".toList, 0, "Next".toList⟩,
    ⟨"0005ee".toList, 1, "Vanderbilt International Swe".toList⟩],
   ["Next".toList, "Vanderbilt International Swe".toList]⟩

/-! ## Lists: first occurrences -/

theorem lookup_cons_self {β : Type} (k : Str) (b : β) (l : List (Str × β)) :
    List.lookup k ((k, b) :: l) = some b := by
  simp [List.lookup]

theorem lookup_cons_ne {β : Type} (k k' : Str) (b : β) (l : List (Str × β)) (h : k ≠ k') :
    List.lookup k ((k', b) :: l) = List.lookup k l := by
  have : (k == k') = false := by simpa using h
  simp [List.lookup, this]

theorem firstPerKey_subset (l : List (Str × Str)) : ∀ q ∈ firstPerKey l, q ∈ l := by
  induction l with
  | nil => simp [firstPerKey]
  | cons r rs ih =>
    intro q hq
    simp only [firstPerKey, List.mem_cons, List.mem_filter] at hq
    rcases hq with rfl | ⟨hq, _⟩
    · simp
    · exact List.mem_cons_of_mem _ (ih q hq)

theorem firstPerKey_append_single (l : List (Str × Str)) (r : Str × Str) :
    firstPerKey (l ++ [r]) =
      if r.1 ∈ l.map Prod.fst then firstPerKey l else firstPerKey l ++ [r] := by
  induction l with
  | nil => simp [firstPerKey]
  | cons x xs ih =>
    simp only [List.cons_append, firstPerKey, List.map_cons, List.mem_cons, List.append_eq]
    rw [ih]
    by_cases h1 : r.1 ∈ xs.map Prod.fst
    · simp [h1]
    · by_cases h2 : r.1 = x.1
      · rw [if_neg h1]
        simp [h2, List.filter_append]
      · have h3 : ¬ x.1 = r.1 := fun h => h2 h.symm
        simp [h1, h2, h3, List.filter_append]

theorem firstPerKey_keys (l : List (Str × Str)) (o : Str) :
    o ∈ (firstPerKey l).map Prod.fst ↔ o ∈ l.map Prod.fst := by
  induction l with
  | nil => simp [firstPerKey]
  | cons r rs ih =>
    simp only [firstPerKey, List.map_cons, List.mem_cons]
    constructor
    · rintro (h | h)
      · exact Or.inl h
      · right
        rw [← ih]
        simp only [List.mem_map, List.mem_filter] at h ⊢
        obtain ⟨q, ⟨hq, _⟩, rfl⟩ := h
        exact ⟨q, hq, rfl⟩
    · rintro (h | h)
      · exact Or.inl h
      · by_cases hr : o = r.1
        · exact Or.inl hr
        · right
          rw [← ih] at h
          simp only [List.mem_map, List.mem_filter] at h ⊢
          obtain ⟨q, hq, rfl⟩ := h
          exact ⟨q, ⟨hq, by simpa using hr⟩, rfl⟩

theorem firstPerKey_nodup (l : List (Str × Str)) : ((firstPerKey l).map Prod.fst).Nodup := by
  induction l with
  | nil => simp [firstPerKey]
  | cons r rs ih =>
    simp only [firstPerKey, List.map_cons, List.nodup_cons]
    constructor
    · simp only [List.mem_map, List.mem_filter, not_exists, not_and]
      rintro q ⟨_, hq⟩ h
      simp [h] at hq
    · exact (ih.sublist ((List.filter_sublist _).map _))

theorem firstPerKey_first (l : List (Str × Str)) (q : Str × Str) (hq : q ∈ firstPerKey l) :
    ∃ pre post, l = pre ++ q :: post ∧ q.1 ∉ pre.map Prod.fst := by
  induction l with
  | nil => simp [firstPerKey] at hq
  | cons r rs ih =>
    simp only [firstPerKey, List.mem_cons, List.mem_filter] at hq
    rcases hq with rfl | ⟨hq, hne⟩
    · exact ⟨[], rs, rfl, by simp⟩
    · obtain ⟨pre, post, rfl, hpre⟩ := ih hq
      refine ⟨r :: pre, post, rfl, ?_⟩
      simp only [List.map_cons, List.mem_cons, not_or]
      exact ⟨by simpa using hne, hpre⟩

theorem distinctInOrder_mem (l : List Str) (x : Str) : x ∈ distinctInOrder l ↔ x ∈ l := by
  induction l with
  | nil => simp [distinctInOrder]
  | cons y ys ih =>
    simp only [distinctInOrder, List.mem_cons, List.mem_filter, ih]
    constructor
    · rintro (h | ⟨h, _⟩)
      · exact Or.inl h
      · exact Or.inr h
    · rintro (h | h)
      · exact Or.inl h
      · by_cases hx : x = y
        · exact Or.inl hx
        · exact Or.inr ⟨h, by simpa using hx⟩

theorem distinctInOrder_nodup (l : List Str) : (distinctInOrder l).Nodup := by
  induction l with
  | nil => simp [distinctInOrder]
  | cons y ys ih =>
    simp only [distinctInOrder, List.nodup_cons, List.mem_filter, not_and]
    exact ⟨fun _ => by simp, ih.sublist (List.filter_sublist _)⟩

theorem distinctInOrder_append_single (l : List Str) (x : Str) :
    distinctInOrder (l ++ [x]) = if x ∈ l then distinctInOrder l else distinctInOrder l ++ [x] := by
  induction l with
  | nil => simp [distinctInOrder]
  | cons y ys ih =>
    simp only [List.cons_append, distinctInOrder, List.mem_cons, List.append_eq]
    rw [ih]
    by_cases h1 : x ∈ ys
    · simp [h1]
    · by_cases h2 : x = y
      · rw [if_neg h1]
        simp [h2, List.filter_append]
      · have h3 : ¬ y = x := fun h => h2 h.symm
        simp [h1, h2, h3, List.filter_append]

/-! ## The loop invariant -/

theorem loopInv_init : LoopInv [] loopInit := by
  constructor <;> simp [loopInit, firstPerKey, distinctInOrder]

theorem entries_keys (recs : List (Str × Str)) (st : loopState) (h : LoopInv recs st) (o : Str) :
    o ∈ st.entries.map (fun e => e.OUI) ↔ o ∈ recs.map Prod.fst := by
  rw [← firstPerKey_keys, ← h.ents]
  simp

theorem register_inv (recs : List (Str × Str)) (st : loopState) (o v : Str)
    (h : LoopInv recs st) : LoopInv (recs ++ [(o, v)]) (register st o v) := by
  unfold register
  cases ho : st.ouiMap.lookup o with
  | some prev =>
    have hmem : o ∈ recs.map Prod.fst := by
      rw [← entries_keys recs st h]
      by_contra hc
      rw [← h.omap o, ho] at hc
      exact absurd hc (by simp)
    exact { h with ents := by rw [firstPerKey_append_single, if_pos hmem]; exact h.ents }
  | none =>
    have hnot : o ∉ st.entries.map (fun e => e.OUI) := (h.omap o).1 ho
    have hnot' : o ∉ recs.map Prod.fst := by rwa [← entries_keys recs st h]
    cases hv : st.vendorMap.lookup v with
    | some i =>
      have hvi := ((h.vmap v).2 i hv)
      have hvmem : v ∈ st.vendors := by
        by_contra hc
        rw [← (h.vmap v).1, hv] at hc
        exact absurd hc (by simp)
      have hvmem' : v ∈ st.entries.map (fun e => e.Vendor) := by
        rw [h.vend, distinctInOrder_mem] at hvmem
        exact hvmem
      constructor
      · simp only [List.map_append, List.map_cons, List.map_nil]
        rw [firstPerKey_append_single, if_neg hnot', h.ents]
      · simp only [List.map_append, List.map_cons, List.map_nil]
        rw [distinctInOrder_append_single, if_pos hvmem']
        exact h.vend
      · intro e he
        simp only [List.mem_append, List.mem_singleton] at he
        rcases he with he | rfl
        · exact h.ids e he
        · simpa [hv] using hvi
      · exact h.idlen
      · intro o'
        simp only [List.map_append, List.map_cons, List.map_nil, List.mem_append,
          List.mem_singleton, not_or]
        by_cases hoo : o' = o
        · subst hoo
          simp [lookup_cons_self]
        · rw [lookup_cons_ne _ _ _ _ hoo, h.omap o']
          simp [hoo]
      · exact h.vmap
    | none =>
      have hvnot : v ∉ st.vendors := (h.vmap v).1.1 hv
      have hvnot' : v ∉ st.entries.map (fun e => e.Vendor) := by
        rw [h.vend, distinctInOrder_mem] at hvnot
        exact hvnot
      have hid : st.id.toNat = st.vendors.length := by rw [h.idlen]; simp
      constructor
      · simp only [List.map_append, List.map_cons, List.map_nil]
        rw [firstPerKey_append_single, if_neg hnot', h.ents]
      · simp only [List.map_append, List.map_cons, List.map_nil]
        rw [distinctInOrder_append_single, if_neg hvnot', h.vend]
      · intro e he
        simp only [List.mem_append, List.mem_singleton] at he
        rcases he with he | rfl
        · obtain ⟨h0, h1⟩ := h.ids e he
          refine ⟨h0, ?_⟩
          have hlt : e.VendorID.toNat < st.vendors.length := by
            by_contra hc
            rw [List.getElem?_eq_none (by omega)] at h1
            exact absurd h1 (by simp)
          simp only
          rw [List.getElem?_append_left hlt]
          exact h1
        · simp only [lookup_cons_self, Option.getD_some]
          refine ⟨by rw [h.idlen]; exact Int.natCast_nonneg _, ?_⟩
          rw [hid]
          simp
      · simp [h.idlen]
      · intro o'
        simp only [List.map_append, List.map_cons, List.map_nil, List.mem_append,
          List.mem_singleton, not_or]
        by_cases hoo : o' = o
        · subst hoo
          simp [lookup_cons_self]
        · rw [lookup_cons_ne _ _ _ _ hoo, h.omap o']
          simp [hoo]
      · intro v'
        by_cases hvv : v' = v
        · subst hvv
          simp only [lookup_cons_self, List.mem_append, List.mem_singleton, or_true,
            not_true_eq_false, iff_false, Option.some.injEq, forall_eq']
          refine ⟨by simp, by rw [h.idlen]; exact Int.natCast_nonneg _, ?_⟩
          rw [hid]
          simp
        · rw [lookup_cons_ne _ _ _ _ hvv]
          refine ⟨?_, ?_⟩
          · rw [(h.vmap v').1]
            simp [hvv]
          · intro i hi
            obtain ⟨h0, h1⟩ := (h.vmap v').2 i hi
            refine ⟨h0, ?_⟩
            have hlt : i.toNat < st.vendors.length := by
              by_contra hc
              rw [List.getElem?_eq_none (by omega)] at h1
              exact absurd h1 (by simp)
            simp only
            rw [List.getElem?_append_left hlt]
            exact h1

theorem loopBody_some (U : GoText) (st st' : loopState) (r : List Str)
    (h : loopBody U st r = some st') :
    ∃ q, recordOf U (.record r) = some q ∧ st' = register st q.1 q.2 := by
  unfold loopBody at h
  cases h1 : r[1]? with
  | none => simp [h1] at h
  | some f1 =>
    cases h2 : r[2]? with
    | none => simp [h1, h2] at h
    | some f2 =>
      simp only [h1, h2, Option.some_bind, Option.some.injEq] at h
      refine ⟨(ToLower U f1, normalize U f2), ?_, ?_⟩
      · simp only [recordOf, ouiField, nameField, h1, h2, Option.map_some', Option.some_bind]
      · rw [← h]

theorem loop_inv (U : GoText) (rows : List ReadResult) :
    ∀ (recs : List (Str × Str)) (st st' : loopState), loop U rows st = some st' →
      LoopInv recs st →
      (∀ r ∈ rows, (recordOf U r).isSome) ∧ LoopInv (recs ++ records U rows) st' := by
  induction rows with
  | nil =>
    intro recs st st' h hinv
    simp only [loop, Option.some.injEq] at h
    subst h
    simpa [records] using hinv
  | cons r rest ih =>
    intro recs st st' h hinv
    cases r with
    | error => simp [loop] at h
    | record fs =>
      simp only [loop] at h
      cases hb : loopBody U st fs with
      | none => simp [hb] at h
      | some st1 =>
        simp only [hb, Option.some_bind] at h
        obtain ⟨q, hq, rfl⟩ := loopBody_some U st st1 fs hb
        obtain ⟨hall, hinv'⟩ := ih (recs ++ [(q.1, q.2)]) _ st' h (register_inv recs st q.1 q.2 hinv)
        refine ⟨?_, ?_⟩
        · intro r hr
          simp only [List.mem_cons] at hr
          rcases hr with rfl | hr
          · simp [hq]
          · exact hall r hr
        · simpa [records, List.filterMap_cons, hq] using hinv'

theorem loop_prefix (U : GoText) (pre post : List ReadResult) :
    ∀ (st st' : loopState), loop U (pre ++ post) st = some st' →
      ∃ st1, loop U pre st = some st1 ∧ loop U post st1 = some st' := by
  induction pre with
  | nil => intro st st' h; exact ⟨st, rfl, h⟩
  | cons r rest ih =>
    intro st st' h
    cases r with
    | error => simp [loop] at h
    | record fs =>
      simp only [List.cons_append, loop] at h ⊢
      cases hb : loopBody U st fs with
      | none => simp [hb] at h
      | some st1 =>
        simp only [hb, Option.some_bind] at h ⊢
        exact ih st1 st' h

/-! ## The sort -/

theorem records_split (U : GoText) (rows : List ReadResult)
    (hall : ∀ r ∈ rows, (recordOf U r).isSome) :
    ∀ (pre' post' : List (Str × Str)) (q : Str × Str), records U rows = pre' ++ q :: post' →
      ∃ pre r post, rows = pre ++ r :: post ∧ records U pre = pre' ∧ recordOf U r = some q := by
  induction rows with
  | nil => intro pre' post' q h; simp [records] at h
  | cons r rest ih =>
    intro pre' post' q h
    obtain ⟨q0, hq0⟩ := Option.isSome_iff_exists.1 (hall r (List.mem_cons_self _ _))
    have hrec : records U (r :: rest) = q0 :: records U rest := by
      simp [records, List.filterMap_cons, hq0]
    rw [hrec] at h
    cases pre' with
    | nil =>
      simp only [List.nil_append, List.cons.injEq] at h
      exact ⟨[], r, rest, rfl, by simp [records], by rw [hq0, h.1]⟩
    | cons p ps =>
      simp only [List.cons_append, List.cons.injEq] at h
      obtain ⟨pre, r1, post, hrows, hpre, hr1⟩ :=
        ih (fun x hx => hall x (List.mem_cons_of_mem _ hx)) ps post' q h.2
      refine ⟨r :: pre, r1, post, by rw [hrows]; rfl, ?_, hr1⟩
      simp [records, List.filterMap_cons, hq0, h.1] at hpre ⊢
      exact hpre

theorem recordOf_fields (U : GoText) (r : ReadResult) (q : Str × Str)
    (h : recordOf U r = some q) : ouiField U r = some q.1 ∧ nameField U r = some q.2 := by
  unfold recordOf at h
  cases h1 : ouiField U r with
  | none => simp [h1] at h
  | some o =>
    cases h2 : nameField U r with
    | none => simp [h1, h2] at h
    | some v =>
      simp only [h1, h2, Option.map_some', Option.some_bind, Option.some.injEq] at h
      subst h
      exact ⟨rfl, rfl⟩

theorem insertLess_perm {α : Type} (less : α → α → Option Bool) (x : α) (l : List α) :
    ∀ r, insertLess less x l = some r → r.Perm (x :: l) := by
  induction l with
  | nil => intro r h; simp only [insertLess, Option.some.injEq] at h; subst h; exact List.Perm.refl _
  | cons y ys ih =>
    intro r h
    simp only [insertLess] at h
    cases hb : less x y with
    | none => simp [hb] at h
    | some b =>
      simp only [hb, Option.some_bind] at h
      cases b with
      | false => simp only [Bool.false_eq_true, if_false, Option.some.injEq] at h; subst h; exact List.Perm.refl _
      | true =>
        simp only [if_true] at h
        cases hr : insertLess less x ys with
        | none => simp [hr] at h
        | some r' =>
          simp only [hr, Option.map_some', Option.some.injEq] at h
          subst h
          exact ((ih r' hr).cons y).trans (List.Perm.swap x y ys)

theorem insertionSort_perm {α : Type} (less : α → α → Option Bool) (xs : List α) :
    ∀ done r, insertionSort less done xs = some r → r.Perm (done ++ xs) := by
  induction xs with
  | nil =>
    intro done r h
    simp only [insertionSort, Option.some.injEq] at h
    subst h
    simp
  | cons x xs ih =>
    intro done r h
    simp only [insertionSort] at h
    cases hd : insertLess less x done with
    | none => simp [hd] at h
    | some done' =>
      simp only [hd, Option.some_bind] at h
      refine (ih done' r h).trans ?_
      refine ((insertLess_perm less x done done' hd).append_right xs).trans ?_
      simpa using (@List.perm_middle _ x done xs).symm

theorem entryLess_some (a b : entry) (r : Bool) (h : entryLess a b = some r) :
    ∃ x y, OUI.Int a.OUI = some x ∧ OUI.Int b.OUI = some y ∧ r = decide (x < y) := by
  unfold entryLess at h
  cases hx : OUI.Int a.OUI with
  | none => simp [hx] at h
  | some x =>
    cases hy : OUI.Int b.OUI with
    | none => simp [hx, hy] at h
    | some y =>
      simp only [hx, hy, Option.some_bind, Option.some.injEq] at h
      exact ⟨x, y, rfl, rfl, h.symm⟩

theorem ouiLe_trans (a b c : OUI) (h1 : ouiLe a b) (h2 : ouiLe b c) : ouiLe a c := by
  obtain ⟨x, y, hx, hy, hxy⟩ := h1
  obtain ⟨y', z, hy', hz, hyz⟩ := h2
  rw [hy] at hy'
  cases hy'
  exact ⟨x, z, hx, hz, le_trans hxy hyz⟩

theorem insertLess_sorted (x : entry) (l : List entry)
    (hl : l.Pairwise fun a b => ouiLe b.OUI a.OUI) :
    ∀ r, insertLess entryLess x l = some r → r.Pairwise fun a b => ouiLe b.OUI a.OUI := by
  induction l with
  | nil => intro r h; simp only [insertLess, Option.some.injEq] at h; subst h; simp
  | cons y ys ih =>
    intro r h
    simp only [insertLess] at h
    cases hb : entryLess x y with
    | none => simp [hb] at h
    | some b =>
      obtain ⟨kx, ky, hkx, hky, hbv⟩ := entryLess_some x y b hb
      simp only [hb, Option.some_bind] at h
      rw [List.pairwise_cons] at hl
      cases b with
      | false =>
        simp only [Bool.false_eq_true, if_false, Option.some.injEq] at h
        subst h
        have hyx : ouiLe y.OUI x.OUI := by
          refine ⟨ky, kx, hky, hkx, ?_⟩
          have : ¬ kx < ky := by simpa using hbv.symm
          exact not_lt.1 this
        rw [List.pairwise_cons]
        refine ⟨?_, List.pairwise_cons.2 hl⟩
        intro z hz
        simp only [List.mem_cons] at hz
        rcases hz with rfl | hz
        · exact hyx
        · exact ouiLe_trans _ _ _ (hl.1 z hz) hyx
      | true =>
        simp only [if_true] at h
        cases hr : insertLess entryLess x ys with
        | none => simp [hr] at h
        | some r' =>
          simp only [hr, Option.map_some', Option.some.injEq] at h
          subst h
          rw [List.pairwise_cons]
          refine ⟨?_, ih hl.2 r' hr⟩
          intro z hz
          have hz' := (insertLess_perm entryLess x ys r' hr).mem_iff.1 hz
          simp only [List.mem_cons] at hz'
          rcases hz' with rfl | hz'
          · have : kx < ky := by simpa using hbv.symm
            exact ⟨kx, ky, hkx, hky, le_of_lt this⟩
          · exact hl.1 z hz'

theorem insertionSort_sorted (xs : List entry) :
    ∀ done r, (done.Pairwise fun a b => ouiLe b.OUI a.OUI) →
      insertionSort entryLess done xs = some r → r.Pairwise fun a b => ouiLe a.OUI b.OUI := by
  induction xs with
  | nil =>
    intro done r hd h
    simp only [insertionSort, Option.some.injEq] at h
    subst h
    exact List.pairwise_reverse.2 hd
  | cons x xs ih =>
    intro done r hd h
    simp only [insertionSort] at h
    cases hi : insertLess entryLess x done with
    | none => simp [hi] at h
    | some done' =>
      simp only [hi, Option.some_bind] at h
      exact ih done' r (insertLess_sorted x done hd done' hi) h

/-- What a successful run of `newTemplateData` has done. -/
theorem newTemplateData_some (U : GoText) (input : List ReadResult) (td : templateData)
    (h : newTemplateData U input = some td) :
    ∃ st, collect U input = some st ∧ loop U input.tail loopInit = some st ∧
      LoopInv (records U input.tail) st ∧ (∀ r ∈ input.tail, (recordOf U r).isSome) ∧
      td.Vendors = st.vendors ∧ sortSlice entryLess st.entries = some td.Entries ∧
      td.Entries.Perm st.entries := by
  unfold newTemplateData at h
  cases hc : collect U input with
  | none => simp [hc] at h
  | some st =>
    simp only [hc, Option.some_bind] at h
    cases hs : sortSlice entryLess st.entries with
    | none => simp [hs] at h
    | some es =>
      simp only [hs, Option.map_some', Option.some.injEq] at h
      subst h
      have hloop : loop U input.tail loopInit = some st := by
        cases input with
        | nil => simp [collect] at hc
        | cons r rows =>
          cases r with
          | error => simp [collect] at hc
          | record fs => simpa [collect] using hc
      obtain ⟨hall, hinv⟩ := loop_inv U input.tail [] loopInit st hloop loopInv_init
      refine ⟨st, rfl, hloop, by simpa using hinv, hall, rfl, hs, ?_⟩
      simpa using insertionSort_perm entryLess st.entries [] es hs

/-! ## Concrete runs -/

theorem sample_run : newTemplateData plainText sampleInput = some sampleTable := by decide

theorem dup_run : newTemplateData plainText dupInput = some dupTable := by decide

/-! ## The table builder: claims -/

theorem filter_key_length_one {α : Type} (f : α → Str) (l : List α) (o : Str)
    (hnd : (l.map f).Nodup) (hmem : o ∈ l.map f) :
    (l.filter fun e => decide (f e = o)).length = 1 := by
  induction l with
  | nil => simp at hmem
  | cons x xs ih =>
    simp only [List.map_cons, List.nodup_cons, List.mem_cons] at hnd hmem
    by_cases hx : f x = o
    · have hno : ∀ e ∈ xs, ¬ f e = o := by
        intro e he heq
        exact hnd.1 (by rw [hx, ← heq]; exact List.mem_map_of_mem f he)
      have : xs.filter (fun e => decide (f e = o)) = [] := by
        rw [List.filter_eq_nil_iff]
        intro e he
        simpa using hno e he
      simp [List.filter_cons, hx, this]
    · have hmem' : o ∈ xs.map f := by
        rcases hmem with h | h
        · exact absurd h.symm hx
        · exact h
      simp [List.filter_cons, hx, ih hnd.2 hmem']

/-- C1: on a successful run every lowercased OUI field of the stream is the OUI of exactly one
entry, and no two entries have the same OUI. -/
theorem entries_oui_unique (U : GoText) (input : List ReadResult) (td : templateData)
    (h : newTemplateData U input = some td) :
    (∀ r ∈ input.tail, ∀ o, ouiField U r = some o →
        (td.Entries.filter fun e => decide (e.OUI = o)).length = 1) ∧
      (td.Entries.map fun e => e.OUI).Nodup := by
  obtain ⟨st, -, -, hinv, hall, -, -, hperm⟩ := newTemplateData_some U input td h
  have hnd : (st.entries.map fun e => e.OUI).Nodup := by
    have := firstPerKey_nodup (records U input.tail)
    rw [← hinv.ents] at this
    simpa [List.map_map, Function.comp_def] using this
  have hnd' : (td.Entries.map fun e => e.OUI).Nodup := ((hperm.map _).nodup_iff).2 hnd
  refine ⟨?_, hnd'⟩
  intro r hr o ho
  apply filter_key_length_one (fun e : entry => e.OUI) _ _ hnd'
  rw [(hperm.map _).mem_iff, entries_keys _ st hinv]
  obtain ⟨q, hq⟩ := Option.isSome_iff_exists.1 (hall r hr)
  have hf := (recordOf_fields U r q hq).1
  rw [ho] at hf
  cases hf
  simp only [records, List.mem_map, List.mem_filterMap]
  exact ⟨q, ⟨r, hr, hq⟩, rfl⟩

theorem entries_oui_unique_witness :
    newTemplateData plainText sampleInput = some sampleTable ∧
      (∀ r ∈ sampleInput.tail, ∀ o, ouiField plainText r = some o →
          (sampleTable.Entries.filter fun e => decide (e.OUI = o)).length = 1) ∧
        (sampleTable.Entries.map fun e => e.OUI).Nodup :=
  ⟨sample_run, entries_oui_unique plainText sampleInput sampleTable sample_run⟩

/-- C2: on a successful run the vendor of every entry is the normalised name of the earliest
row of the stream that has the entry's OUI. -/
theorem entry_vendor_first (U : GoText) (input : List ReadResult) (td : templateData)
    (h : newTemplateData U input = some td) :
    ∀ e ∈ td.Entries, ∃ pre r post, input.tail = pre ++ r :: post ∧
      ouiField U r = some e.OUI ∧ nameField U r = some e.Vendor ∧
      ∀ r' ∈ pre, ouiField U r' ≠ some e.OUI := by
  obtain ⟨st, -, -, hinv, hall, -, -, hperm⟩ := newTemplateData_some U input td h
  intro e he
  have he' : e ∈ st.entries := hperm.mem_iff.1 he
  have hq : (e.OUI, e.Vendor) ∈ firstPerKey (records U input.tail) := by
    rw [← hinv.ents]
    exact List.mem_map_of_mem (fun e : entry => (e.OUI, e.Vendor)) he'
  obtain ⟨pre', post', hsplit, hfirst⟩ := firstPerKey_first _ _ hq
  obtain ⟨pre, r, post, hrows, hpre, hr⟩ := records_split U input.tail hall pre' post' _ hsplit
  obtain ⟨ho, hn⟩ := recordOf_fields U r _ hr
  refine ⟨pre, r, post, hrows, ho, hn, ?_⟩
  intro r' hr' heq
  apply hfirst
  have hr'mem : r' ∈ input.tail := by rw [hrows]; exact List.mem_append_left _ hr'
  obtain ⟨q', hq'⟩ := Option.isSome_iff_exists.1 (hall r' hr'mem)
  have hf := (recordOf_fields U r' q' hq').1
  rw [heq] at hf
  simp only [Option.some.injEq] at hf
  rw [← hpre]
  simp only [records, List.mem_map, List.mem_filterMap]
  exact ⟨q', ⟨r', hr', hq'⟩, hf.symm⟩

theorem entry_vendor_first_witness :
    newTemplateData plainText dupInput = some dupTable ∧
      ∀ e ∈ dupTable.Entries, ∃ pre r post, dupInput.tail = pre ++ r :: post ∧
        ouiField plainText r = some e.OUI ∧ nameField plainText r = some e.Vendor ∧
        ∀ r' ∈ pre, ouiField plainText r' ≠ some e.OUI :=
  ⟨dup_run, entry_vendor_first plainText dupInput dupTable dup_run⟩

/-- C3: on a successful run every vendor id is an index of the vendor-name sequence and the
name at that index is the entry's vendor; after any number of rows the id counter is the
length of the vendor-name sequence. -/
theorem vendor_ids_valid (U : GoText) (input : List ReadResult) (td : templateData)
    (h : newTemplateData U input = some td) :
    (∀ e ∈ td.Entries, 0 ≤ e.VendorID ∧ e.VendorID < (td.Vendors.length : Int) ∧
        td.Vendors[e.VendorID.toNat]? = some e.Vendor) ∧
      ∀ pre post st, input.tail = pre ++ post → loop U pre loopInit = some st →
        st.id = (st.vendors.length : Int) := by
  obtain ⟨st, -, -, hinv, -, hv, -, hperm⟩ := newTemplateData_some U input td h
  refine ⟨?_, ?_⟩
  · intro e he
    obtain ⟨h0, h1⟩ := hinv.ids e (hperm.mem_iff.1 he)
    rw [hv]
    refine ⟨h0, ?_, h1⟩
    have hlt : e.VendorID.toNat < st.vendors.length := by
      by_contra hc
      rw [List.getElem?_eq_none (by omega)] at h1
      exact absurd h1 (by simp)
    omega
  · intro pre post st1 _ hl
    exact (loop_inv U pre [] loopInit st1 hl loopInv_init).2.idlen

theorem vendor_ids_valid_witness :
    newTemplateData plainText sampleInput = some sampleTable ∧
      (∀ e ∈ sampleTable.Entries, 0 ≤ e.VendorID ∧
          e.VendorID < (sampleTable.Vendors.length : Int) ∧
          sampleTable.Vendors[e.VendorID.toNat]? = some e.Vendor) ∧
        ∀ pre post st, sampleInput.tail = pre ++ post → loop plainText pre loopInit = some st →
          st.id = (st.vendors.length : Int) :=
  ⟨sample_run, vendor_ids_valid plainText sampleInput sampleTable sample_run⟩

/-- C4: on a successful run no vendor name is listed twice, and two entries have the same
vendor id exactly when they have the same vendor name. -/
theorem vendors_deduplicated (U : GoText) (input : List ReadResult) (td : templateData)
    (h : newTemplateData U input = some td) :
    td.Vendors.Nodup ∧
      ∀ e1 ∈ td.Entries, ∀ e2 ∈ td.Entries, (e1.VendorID = e2.VendorID ↔ e1.Vendor = e2.Vendor) := by
  obtain ⟨st, -, -, hinv, -, hv, -, hperm⟩ := newTemplateData_some U input td h
  have hnd : st.vendors.Nodup := by rw [hinv.vend]; exact distinctInOrder_nodup _
  refine ⟨by rw [hv]; exact hnd, ?_⟩
  intro e1 he1 e2 he2
  obtain ⟨h10, h11⟩ := hinv.ids e1 (hperm.mem_iff.1 he1)
  obtain ⟨h20, h21⟩ := hinv.ids e2 (hperm.mem_iff.1 he2)
  constructor
  · intro heq
    rw [heq, h21] at h11
    exact (Option.some.inj h11).symm
  · intro heq
    rw [← heq] at h21
    obtain ⟨hl1, hg1⟩ := List.getElem?_eq_some_iff.1 h11
    obtain ⟨hl2, hg2⟩ := List.getElem?_eq_some_iff.1 h21
    have := (@List.Nodup.getElem_inj_iff _ _ hnd _ hl1 _ hl2).1 (hg1.trans hg2.symm)
    omega

theorem vendors_deduplicated_witness :
    newTemplateData plainText dupInput = some dupTable ∧ dupTable.Vendors.Nodup ∧
      ∀ e1 ∈ dupTable.Entries, ∀ e2 ∈ dupTable.Entries,
        (e1.VendorID = e2.VendorID ↔ e1.Vendor = e2.Vendor) :=
  ⟨dup_run, vendors_deduplicated plainText dupInput dupTable dup_run⟩

/-- C5 as stated fails on `dupInput`: the second distinct name of the stream belongs to a row
that is dropped for its OUI, and id 1 goes to the third. -/
theorem vendor_ids_all_records_counterexample :
    ¬ ∀ td, newTemplateData plainText dupInput = some td →
      ∀ (k : Nat) (n : Str),
        (distinctInOrder ((records plainText dupInput.tail).map Prod.snd))[k]? = some n →
          td.Vendors[k]? = some n := by
  intro h
  have h1 := h dupTable dup_run 1 "Royal Melbourne Inst Tech".toList (by decide)
  revert h1
  decide

/-- C5, amended: on a successful run the vendor-name sequence lists the distinct normalised
names of the rows that are the first of their OUI, in order of first appearance, so the
k-th such name has id k. -/
theorem vendors_first_occurrence (U : GoText) (input : List ReadResult) (td : templateData)
    (h : newTemplateData U input = some td) :
    td.Vendors = distinctInOrder ((firstPerKey (records U input.tail)).map Prod.snd) := by
  obtain ⟨st, -, -, hinv, -, hv, -, -⟩ := newTemplateData_some U input td h
  rw [hv, hinv.vend, ← hinv.ents]
  simp [List.map_map, Function.comp_def]

theorem vendors_first_occurrence_witness :
    newTemplateData plainText dupInput = some dupTable ∧
      dupTable.Vendors =
        distinctInOrder ((firstPerKey (records plainText dupInput.tail)).map Prod.snd) :=
  ⟨dup_run, vendors_first_occurrence plainText dupInput dupTable dup_run⟩

/-- The entries of a table are pairwise in ascending order of the numeric value of their
OUI, both values parsing. -/
theorem entries_ascending (U : GoText) (input : List ReadResult) (td : templateData)
    (h : newTemplateData U input = some td) :
    ∀ (i j : Nat) (ei ej : entry), i < j → td.Entries[i]? = some ei →
      td.Entries[j]? = some ej →
        ∃ a b, OUI.Int ei.OUI = some a ∧ OUI.Int ej.OUI = some b ∧ a ≤ b := by
  obtain ⟨st, -, -, -, -, -, hs, -⟩ := newTemplateData_some U input td h
  have hsorted := insertionSort_sorted st.entries [] td.Entries List.Pairwise.nil hs
  intro i j ei ej hij hi hj
  obtain ⟨hli, hgi⟩ := List.getElem?_eq_some_iff.1 hi
  obtain ⟨hlj, hgj⟩ := List.getElem?_eq_some_iff.1 hj
  have := List.pairwise_iff_getElem.1 hsorted i j hli hlj hij
  rw [hgi, hgj] at this
  exact this

/-- C6: on a successful run the entries are a permutation of the entries collected by the
loop, and they are in ascending order of the numeric value of their OUI. -/
theorem entries_sorted_perm (U : GoText) (input : List ReadResult) (td : templateData)
    (h : newTemplateData U input = some td) :
    (∃ st, collect U input = some st ∧ td.Entries.Perm st.entries) ∧
      ∀ (i j : Nat) (ei ej : entry), i < j → td.Entries[i]? = some ei →
        td.Entries[j]? = some ej →
        ∃ a b, OUI.Int ei.OUI = some a ∧ OUI.Int ej.OUI = some b ∧ a ≤ b := by
  obtain ⟨st, hc, -, -, -, -, -, hperm⟩ := newTemplateData_some U input td h
  exact ⟨⟨st, hc, hperm⟩, entries_ascending U input td h⟩

theorem entries_sorted_perm_witness :
    newTemplateData plainText sampleInput = some sampleTable ∧
      (∃ st, collect plainText sampleInput = some st ∧ sampleTable.Entries.Perm st.entries) ∧
        ∀ (i j : Nat) (ei ej : entry), i < j → sampleTable.Entries[i]? = some ei →
          sampleTable.Entries[j]? = some ej →
          ∃ a b, OUI.Int ei.OUI = some a ∧ OUI.Int ej.OUI = some b ∧ a ≤ b :=
  ⟨sample_run, entries_sorted_perm plainText sampleInput sampleTable sample_run⟩

/-- A table of two or more entries is returned only when every OUI in it parses. -/
theorem entries_parse_of_two (U : GoText) (input : List ReadResult) (td : templateData)
    (h : newTemplateData U input = some td) (h2 : 2 ≤ td.Entries.length) :
    ∀ e ∈ td.Entries, (OUI.Int e.OUI).isSome := by
  have hs := entries_ascending U input td h
  intro e he
  obtain ⟨i, hi, hget⟩ := List.getElem_of_mem he
  by_cases h0 : i = 0
  · subst h0
    have h1 : 1 < td.Entries.length := by omega
    obtain ⟨a, b, ha, -, -⟩ := hs 0 1 e (td.Entries[1]) (by omega)
      (by rw [List.getElem?_eq_getElem hi, hget]) (List.getElem?_eq_getElem h1)
    simp [ha]
  · have h1 : 0 < td.Entries.length := by omega
    obtain ⟨a, b, -, hb, -⟩ := hs 0 i (td.Entries[0]) e (by omega)
      (List.getElem?_eq_getElem h1) (by rw [List.getElem?_eq_getElem hi, hget])
    simp [hb]

/-- C7 fails on `badHexInput`: the OUI `00000g` does not parse, and the table is returned all
the same, because a slice of one entry is sorted without a comparison. -/
theorem bad_hex_single_row_accepted :
    OUI.Int "00000g".toList = none ∧
      newTemplateData plainText badHexInput =
        some ⟨[⟨"00000g".toList, 0, "Acme".toList⟩], ["Acme".toList]⟩ := by
  decide

theorem toNat_ofNat_small (n : Nat) (h : n < 55296) : (Char.ofNat n).toNat = n := by
  have hv : n.isValidChar := Or.inl h
  simp only [Char.ofNat, hv, Char.ofNatAux, Char.toNat, dite_true]
  rfl

theorem char_eq_of_toNat (c d : Char) (h : c.toNat = d.toNat) : c = d := by
  rw [← Char.ofNat_toNat c, ← Char.ofNat_toNat d, h]

theorem isLetter_upper (c : Char) (h : isLetter c = true) : isLetter (upper c) = true := by
  unfold upper
  split
  · rename_i hl
    simp only [isLower, Bool.and_eq_true, decide_eq_true_eq] at hl
    simp only [isLetter, isUpper, isLower, Bool.or_eq_true, Bool.and_eq_true, decide_eq_true_eq]
    rw [toNat_ofNat_small _ (by omega)]
    omega
  · exact h

theorem isLetter_lower (c : Char) (h : isLetter c = true) : isLetter (lower c) = true := by
  unfold lower
  split
  · rename_i hl
    simp only [isUpper, Bool.and_eq_true, decide_eq_true_eq] at hl
    simp only [isLetter, isUpper, isLower, Bool.or_eq_true, Bool.and_eq_true, decide_eq_true_eq]
    rw [toNat_ofNat_small _ (by omega)]
    omega
  · exact h

theorem isLetter_not_stray (c : Char) (h : isLetter c = true) : c ∉ strayPunctuation := by
  intro hc
  simp only [isLetter, isUpper, isLower, Bool.or_eq_true, Bool.and_eq_true,
    decide_eq_true_eq] at h
  simp only [strayPunctuation, List.mem_cons, List.mem_singleton, List.not_mem_nil,
    or_false] at hc
  rcases hc with rfl | rfl | rfl | rfl | rfl | rfl | rfl | rfl | rfl | rfl <;>
    revert h <;> decide

theorem mem_deleteScan (r : Regex) (s : Str) :
    ∀ (k : Nat) (p : Bool) (c : Char), c ∈ r.deleteScan k p s → c ∈ s := by
  induction s with
  | nil => intro k p c h; simp [Regex.deleteScan] at h
  | cons d s ih =>
    intro k p c h
    cases k with
    | succ k =>
      simp only [Regex.deleteScan] at h
      exact List.mem_cons_of_mem _ (ih _ _ _ h)
    | zero =>
      simp only [Regex.deleteScan] at h
      split at h
      · split at h
        · exact List.mem_cons_of_mem _ (ih _ _ _ h)
        · simp only [List.mem_cons] at h ⊢
          exact h.imp id (ih _ _ _)
      · simp only [List.mem_cons] at h ⊢
        exact h.imp id (ih _ _ _)

theorem replacerLookup_some (pairs : List (Str × Str)) (s old new : Str)
    (h : replacerLookup pairs s = some (old, new)) : (old, new) ∈ pairs := by
  induction pairs with
  | nil => simp [replacerLookup] at h
  | cons q rest ih =>
    obtain ⟨o, n⟩ := q
    simp only [replacerLookup] at h
    split at h
    · simp only [Option.some.injEq, Prod.mk.injEq] at h
      simp [h.1, h.2]
    · exact List.mem_cons_of_mem _ (ih h)

theorem replacerLookup_none (pairs : List (Str × Str)) (s : Str)
    (h : replacerLookup pairs s = none) : ∀ q ∈ pairs, q.1.isPrefixOf s = false := by
  induction pairs with
  | nil => simp
  | cons q rest ih =>
    obtain ⟨o, n⟩ := q
    simp only [replacerLookup] at h
    split at h
    · simp at h
    · rename_i hp
      intro q hq
      simp only [List.mem_cons] at hq
      rcases hq with rfl | hq
      · exact Bool.eq_false_iff.mpr hp
      · exact ih h q hq

theorem mem_srReplace (s : Str) :
    ∀ (k : Nat) (c : Char), c ∈ replacerScan sr k s →
      (c ∈ s ∧ c ∉ [',', '.', '&', '(', ')', '\'', '-', '*', '/']) ∨ c = '/' ∨ c = ' ' := by
  induction s with
  | nil => intro k c h; simp [replacerScan] at h
  | cons d s ih =>
    intro k c h
    cases k with
    | succ k =>
      simp only [replacerScan] at h
      rcases ih _ _ h with h1 | h1
      · exact Or.inl ⟨List.mem_cons_of_mem _ h1.1, h1.2⟩
      · exact Or.inr h1
    | zero =>
      simp only [replacerScan] at h
      split at h
      · rename_i old new hl
        have hmem := replacerLookup_some _ _ _ _ hl
        simp only [List.mem_append] at h
        rcases h with h | h
        · right
          simp only [sr, srPairs, List.map_cons, List.map_nil, List.mem_cons, Prod.mk.injEq,
            List.mem_singleton, List.not_mem_nil, or_false] at hmem
          rcases hmem with ⟨-, rfl⟩ | ⟨-, rfl⟩ | ⟨-, rfl⟩ | ⟨-, rfl⟩ | ⟨-, rfl⟩ | ⟨-, rfl⟩ |
            ⟨-, rfl⟩ | ⟨-, rfl⟩ | ⟨-, rfl⟩ | ⟨-, rfl⟩ | ⟨-, rfl⟩ | ⟨-, rfl⟩ | ⟨-, rfl⟩ |
            ⟨-, rfl⟩ | ⟨-, rfl⟩ | ⟨-, rfl⟩ | ⟨-, rfl⟩ | ⟨-, rfl⟩ | ⟨-, rfl⟩ | ⟨-, rfl⟩ |
            ⟨-, rfl⟩ <;> simp at h <;> simp [h]
        · rcases ih _ _ h with h1 | h1
          · exact Or.inl ⟨List.mem_cons_of_mem _ h1.1, h1.2⟩
          · exact Or.inr h1
      · rename_i hl
        have hn := replacerLookup_none _ _ hl
        simp only [List.mem_cons] at h
        rcases h with rfl | h
        · left
          refine ⟨List.mem_cons_self _ _, ?_⟩
          intro hc
          simp only [List.mem_cons, List.mem_singleton, List.not_mem_nil, or_false] at hc
          rcases hc with rfl | rfl | rfl | rfl | rfl | rfl | rfl | rfl | rfl
          · exact absurd (hn (",".toList, "/".toList) (by decide)) (by simp [List.isPrefixOf])
          · exact absurd (hn (".".toList, "/".toList) (by decide)) (by simp [List.isPrefixOf])
          · exact absurd (hn ("&".toList, " ".toList) (by decide)) (by simp [List.isPrefixOf])
          · exact absurd (hn ("(".toList, "".toList) (by decide)) (by simp [List.isPrefixOf])
          · exact absurd (hn (")".toList, "".toList) (by decide)) (by simp [List.isPrefixOf])
          · exact absurd (hn ("'".toList, " ".toList) (by decide)) (by simp [List.isPrefixOf])
          · exact absurd (hn ("-".toList, " ".toList) (by decide)) (by simp [List.isPrefixOf])
          · exact absurd (hn ("*".toList, "".toList) (by decide)) (by simp [List.isPrefixOf])
          · exact absurd (hn ("/".toList, "".toList) (by decide)) (by simp [List.isPrefixOf])
        · rcases ih _ _ h with h1 | h1
          · exact Or.inl ⟨List.mem_cons_of_mem _ h1.1, h1.2⟩
          · exact Or.inr h1

theorem mem_fieldsAux (s : Str) :
    ∀ (cur w : Str), w ∈ fieldsAux cur s → ∀ c ∈ w, c ∈ cur ∨ c ∈ s := by
  induction s with
  | nil =>
    intro cur w hw c hc
    simp only [fieldsAux] at hw
    split at hw
    · simp at hw
    · simp only [List.mem_singleton] at hw
      subst hw
      exact Or.inl (List.mem_reverse.1 hc)
  | cons d s ih =>
    intro cur w hw c hc
    simp only [fieldsAux] at hw
    split at hw
    · split at hw
      · rcases ih _ _ hw c hc with h | h
        · simp at h
        · exact Or.inr (List.mem_cons_of_mem _ h)
      · simp only [List.mem_cons] at hw
        rcases hw with rfl | hw
        · exact Or.inl (List.mem_reverse.1 hc)
        · rcases ih _ _ hw c hc with h | h
          · simp at h
          · exact Or.inr (List.mem_cons_of_mem _ h)
    · rcases ih _ _ hw c hc with h | h
      · simp only [List.mem_cons] at h
        rcases h with rfl | h
        · exact Or.inr (List.mem_cons_self _ _)
        · exact Or.inl h
      · exact Or.inr (List.mem_cons_of_mem _ h)

theorem mem_joinSpace (ws : List Str) (c : Char) (h : c ∈ joinSpace ws) :
    c = ' ' ∨ ∃ w ∈ ws, c ∈ w := by
  induction ws with
  | nil => simp [joinSpace] at h
  | cons w ws ih =>
    cases ws with
    | nil =>
      simp only [joinSpace] at h
      exact Or.inr ⟨w, List.mem_singleton.2 rfl, h⟩
    | cons w2 ws2 =>
      simp only [joinSpace, List.mem_append, List.mem_cons] at h
      rcases h with h | h | h
      · exact Or.inr ⟨w, List.mem_cons_self _ _, h⟩
      · exact Or.inl h
      · rcases ih h with h1 | ⟨w', hw', hc⟩
        · exact Or.inl h1
        · exact Or.inr ⟨w', List.mem_cons_of_mem _ hw', hc⟩

theorem mem_joinSpace_Fields (s : Str) (c : Char) (h : c ∈ joinSpace (Fields s)) :
    c = ' ' ∨ c ∈ s := by
  rcases mem_joinSpace _ _ h with h1 | ⟨w, hw, hc⟩
  · exact Or.inl h1
  · rcases mem_fieldsAux s [] w hw c hc with h2 | h2
    · simp at h2
    · exact Or.inr h2

theorem mem_titleLoop (s : Str) :
    ∀ (mw wm : Bool) (c : Char), c ∈ titleLoop mw wm s → c ∈ s ∨ isLetter c = true := by
  induction s with
  | nil => intro mw wm c h; simp [titleLoop] at h
  | cons d s ih =>
    intro mw wm c h
    simp only [titleLoop] at h
    split at h
    · rename_i hd
      simp only [List.mem_cons] at h
      rcases h with rfl | h
      · right
        split
        · split
          · exact isLetter_lower d hd
          · exact isLetter_upper d hd
        · split
          · exact isLetter_lower d hd
          · exact isLetter_upper d hd
      · exact (ih _ _ _ h).imp (List.mem_cons_of_mem _) id
    · simp only [List.mem_cons] at h
      rcases h with rfl | h
      · exact Or.inl (List.mem_cons_self _ _)
      · exact (ih _ _ _ h).imp (List.mem_cons_of_mem _) id

theorem mem_caserString (U : GoText) (hU : TitleAddsNoPunctuation U) (s : Str) (c : Char)
    (h : c ∈ caserString U s) (hc : c ∈ strayPunctuation) : c ∈ s := by
  unfold caserString at h
  split at h
  · rcases mem_titleLoop s _ _ c h with h1 | h1
    · exact h1
    · exact absurd hc (isLetter_not_stray c h1)
  · exact hU s c h hc

theorem TrimSpace_sublist (s : Str) : (TrimSpace s).Sublist s := by
  unfold TrimSpace
  refine List.Sublist.trans ?_ (List.dropWhile_sublist isSpace)
  have := (List.dropWhile_sublist isSpace :
    ((s.dropWhile isSpace).reverse.dropWhile isSpace).Sublist _).reverse
  rwa [List.reverse_reverse] at this

theorem head_dropWhile_not (p : Char → Bool) (s : Str) (c : Char)
    (h : (s.dropWhile p).head? = some c) : p c = false := by
  induction s with
  | nil => simp at h
  | cons d s ih =>
    simp only [List.dropWhile_cons] at h
    split at h
    · exact ih h
    · rename_i hd
      simp only [List.head?_cons, Option.some.injEq] at h
      subst h
      simpa using hd

theorem TrimSpace_head (s : Str) (c : Char) (h : (TrimSpace s).head? = some c) :
    isSpace c = false := by
  unfold TrimSpace at h
  have hpre : ((s.dropWhile isSpace).reverse.dropWhile isSpace).reverse <+: s.dropWhile isSpace := by
    rw [← List.reverse_suffix, List.reverse_reverse]
    exact List.dropWhile_suffix isSpace
  obtain ⟨t, ht⟩ := hpre
  apply head_dropWhile_not isSpace s c
  rw [← ht]
  cases hu : ((s.dropWhile isSpace).reverse.dropWhile isSpace).reverse with
  | nil => rw [hu] at h; simp at h
  | cons d u => rw [hu] at h; simpa using h

theorem TrimSpace_getLast (s : Str) (c : Char) (h : (TrimSpace s).getLast? = some c) :
    isSpace c = false := by
  unfold TrimSpace at h
  rw [List.getLast?_reverse] at h
  exact head_dropWhile_not isSpace _ c h

/-- C9: the normalised name has no white space at either end and none of the characters
double quote, comma, period, ampersand, parentheses, apostrophe, hyphen, asterisk, slash;
the title caser is assumed not to add such characters to text outside ASCII. -/
theorem normalize_no_stray (U : GoText) (hU : TitleAddsNoPunctuation U) (raw : Str) :
    (∀ c, (normalize U raw).head? = some c → isSpace c = false) ∧
      (∀ c, (normalize U raw).getLast? = some c → isSpace c = false) ∧
      ∀ c ∈ normalize U raw, c ∉ strayPunctuation := by
  refine ⟨fun c h => TrimSpace_head _ c h, fun c h => TrimSpace_getLast _ c h, ?_⟩
  intro c hc hs
  unfold normalize at hc
  have h1 := (TrimSpace_sublist _).subset hc
  simp only [removeChar, List.mem_filter, bne_iff_ne, ne_eq] at h1
  obtain ⟨h1, hslash⟩ := h1
  have h2 := mem_caserString U hU _ c h1 hs
  have h3 : c ≠ ' ' := by
    intro h
    subst h
    revert hs
    decide
  have h4 : c ∈ srReplace (pattern.deleteAll (simplifyName (removeChar '"' (TrimSpace raw)))) := by
    rcases mem_joinSpace_Fields _ c h2 with h | h
    · exact absurd h h3
    · exact h
  rcases mem_srReplace _ _ c h4 with ⟨h5, h6⟩ | h5 | h5
  · have h7 := mem_deleteScan _ _ _ _ _ h5
    simp only [simplifyName] at h7
    have h8 := mem_deleteScan _ _ _ _ _ (mem_deleteScan _ _ _ _ _ (mem_deleteScan _ _ _ _ _ h7))
    simp only [removeChar, List.mem_filter, bne_iff_ne, ne_eq] at h8
    simp only [strayPunctuation, List.mem_cons, List.mem_singleton, List.not_mem_nil,
      or_false] at hs h6
    rcases hs with h | h
    · exact h8.2 h
    · exact h6 h
  · exact hslash h5
  · exact h3 h5

theorem plainText_title : TitleAddsNoPunctuation plainText := fun _ _ h _ => h

theorem normalize_no_stray_witness :
    TitleAddsNoPunctuation plainText ∧
      (∀ c, (normalize plainText " \"Foo & Bar\" Co., Ltd. ".toList).head? = some c →
        isSpace c = false) ∧
      (∀ c, (normalize plainText " \"Foo & Bar\" Co., Ltd. ".toList).getLast? = some c →
        isSpace c = false) ∧
      ∀ c ∈ normalize plainText " \"Foo & Bar\" Co., Ltd. ".toList, c ∉ strayPunctuation :=
  ⟨plainText_title, normalize_no_stray plainText plainText_title _⟩

theorem atWordBoundary_eq (p : Bool) (s : Str) : atWordBoundary p s = (p != headWord s) := by
  cases s <;> rfl

theorem lastWord_append (p : Bool) (s t : Str) :
    lastWord p (s ++ t) = lastWord (lastWord p s) t := by
  induction s generalizing p with
  | nil => rfl
  | cons c s ih => exact ih (isWordChar c)

theorem starRun_spec (a : Atom) (s : Str) :
    ∀ (p p' : Bool) (rem : Str), (p', rem) ∈ starRun a p s →
      ∃ consumed, s = consumed ++ rem ∧ p' = lastWord p consumed := by
  induction s with
  | nil =>
    intro p p' rem h
    simp only [starRun, List.mem_singleton, Prod.mk.injEq] at h
    exact ⟨[], by simp [h.2], by simp [h.1, lastWord]⟩
  | cons c s ih =>
    intro p p' rem h
    simp only [starRun] at h
    split at h
    · simp only [List.mem_append, List.mem_singleton, Prod.mk.injEq] at h
      rcases h with h | h
      · obtain ⟨consumed, hs, hp⟩ := ih _ _ _ h
        exact ⟨c :: consumed, by simp [hs], by simp [lastWord, hp]⟩
      · exact ⟨[], by simp [h.2], by simp [h.1, lastWord]⟩
    · simp only [List.mem_singleton, Prod.mk.injEq] at h
      exact ⟨[], by simp [h.2], by simp [h.1, lastWord]⟩

theorem run_spec (r : Regex) :
    ∀ (p : Bool) (s : Str) (p' : Bool) (rem : Str), (p', rem) ∈ r.run p s →
      ∃ consumed, s = consumed ++ rem ∧ p' = lastWord p consumed ∧
        (r.consumes = true → consumed ≠ []) := by
  induction r with
  | eps =>
    intro p s p' rem h
    simp only [Regex.run, List.mem_singleton, Prod.mk.injEq] at h
    exact ⟨[], by simp [h.2], by simp [h.1, lastWord], by simp [Regex.consumes]⟩
  | atom a =>
    intro p s p' rem h
    cases s with
    | nil => simp [Regex.run] at h
    | cons c s =>
      simp only [Regex.run] at h
      split at h
      · simp only [List.mem_singleton, Prod.mk.injEq] at h
        exact ⟨[c], by simp [h.2], by simp [h.1, lastWord], by simp⟩
      · simp at h
  | seq a b iha ihb =>
    intro p s p' rem h
    simp only [Regex.run, List.mem_flatMap] at h
    obtain ⟨⟨p1, s1⟩, h1, h2⟩ := h
    obtain ⟨c1, hs1, hp1, hc1⟩ := iha _ _ _ _ h1
    obtain ⟨c2, hs2, hp2, hc2⟩ := ihb _ _ _ _ h2
    simp only at hs2 hp2
    refine ⟨c1 ++ c2, by rw [hs1, hs2, List.append_assoc],
      by rw [lastWord_append, ← hp1, hp2], ?_⟩
    intro hc
    simp only [Regex.consumes, Bool.or_eq_true] at hc
    rcases hc with hc | hc
    · have := hc1 hc
      simp [this]
    · have := hc2 hc
      simp [this]
  | alt a b iha ihb =>
    intro p s p' rem h
    simp only [Regex.run, List.mem_append] at h
    rcases h with h | h
    · obtain ⟨c1, hs1, hp1, hc1⟩ := iha _ _ _ _ h
      refine ⟨c1, hs1, hp1, ?_⟩
      intro hc
      simp only [Regex.consumes, Bool.and_eq_true] at hc
      exact hc1 hc.1
    · obtain ⟨c1, hs1, hp1, hc1⟩ := ihb _ _ _ _ h
      refine ⟨c1, hs1, hp1, ?_⟩
      intro hc
      simp only [Regex.consumes, Bool.and_eq_true] at hc
      exact hc1 hc.2
  | opt a iha =>
    intro p s p' rem h
    simp only [Regex.run, List.mem_append, List.mem_singleton, Prod.mk.injEq] at h
    rcases h with h | h
    · obtain ⟨c1, hs1, hp1, -⟩ := iha _ _ _ _ h
      exact ⟨c1, hs1, hp1, by simp [Regex.consumes]⟩
    · exact ⟨[], by simp [h.2], by simp [h.1, lastWord], by simp [Regex.consumes]⟩
  | star a =>
    intro p s p' rem h
    simp only [Regex.run] at h
    obtain ⟨c1, hs1, hp1⟩ := starRun_spec a s _ _ _ h
    exact ⟨c1, hs1, hp1, by simp [Regex.consumes]⟩
  | plus a =>
    intro p s p' rem h
    cases s with
    | nil => simp [Regex.run] at h
    | cons c s =>
      simp only [Regex.run] at h
      split at h
      · obtain ⟨c1, hs1, hp1⟩ := starRun_spec a s _ _ _ h
        exact ⟨c :: c1, by simp [hs1], by simp [lastWord, hp1], by simp⟩
      · simp at h
  | wordBoundary =>
    intro p s p' rem h
    simp only [Regex.run] at h
    split at h
    · simp only [List.mem_singleton, Prod.mk.injEq] at h
      exact ⟨[], by simp [h.2], by simp [h.1, lastWord], by simp [Regex.consumes]⟩
    · simp at h
  | endText =>
    intro p s p' rem h
    simp only [Regex.run] at h
    split at h
    · simp only [List.mem_singleton, Prod.mk.injEq] at h
      exact ⟨[], by simp [h.2], by simp [h.1, lastWord], by simp [Regex.consumes]⟩
    · simp at h

theorem run_endsAtBoundary (r : Regex) :
    ∀ (p : Bool) (s : Str) (p' : Bool) (rem : Str), r.endsAtBoundary = true →
      (p', rem) ∈ r.run p s → atWordBoundary p' rem = true := by
  induction r with
  | seq a b _ ihb =>
    intro p s p' rem he h
    simp only [Regex.run, List.mem_flatMap] at h
    obtain ⟨⟨p1, s1⟩, -, h2⟩ := h
    exact ihb _ _ _ _ (by simpa [Regex.endsAtBoundary] using he) h2
  | alt a b iha ihb =>
    intro p s p' rem he h
    simp only [Regex.endsAtBoundary, Bool.and_eq_true] at he
    simp only [Regex.run, List.mem_append] at h
    rcases h with h | h
    · exact iha _ _ _ _ he.1 h
    · exact ihb _ _ _ _ he.2 h
  | wordBoundary =>
    intro p s p' rem _ h
    simp only [Regex.run] at h
    split at h
    · rename_i hb
      simp only [List.mem_singleton, Prod.mk.injEq] at h
      rw [h.1, h.2]
      exact hb
    · simp at h
  | eps => intro p s p' rem he; simp [Regex.endsAtBoundary] at he
  | atom a => intro p s p' rem he; simp [Regex.endsAtBoundary] at he
  | opt a _ => intro p s p' rem he; simp [Regex.endsAtBoundary] at he
  | star a => intro p s p' rem he; simp [Regex.endsAtBoundary] at he
  | plus a => intro p s p' rem he; simp [Regex.endsAtBoundary] at he
  | endText => intro p s p' rem he; simp [Regex.endsAtBoundary] at he

theorem starRun_append (a : Atom) (rest : Str) (s : Str) :
    ∀ (p p' : Bool) (rem : Str), (p', rem) ∈ starRun a p s →
      (p', rem ++ rest) ∈ starRun a p (s ++ rest) := by
  induction s with
  | nil =>
    intro p p' rem h
    simp only [starRun, List.mem_singleton, Prod.mk.injEq] at h
    rw [h.1, h.2]
    cases rest with
    | nil => simp [starRun]
    | cons d rest =>
      simp only [List.nil_append, starRun]
      split <;> simp
  | cons c s ih =>
    intro p p' rem h
    simp only [starRun, List.cons_append] at h ⊢
    split at h
    · rename_i ht
      simp only [ht, if_true, List.mem_append, List.mem_singleton, Prod.mk.injEq] at h ⊢
      rcases h with h | h
      · exact Or.inl (ih _ _ _ h)
      · right
        simp [h.1, h.2]
    · rename_i ht
      simp only [ht, List.mem_singleton, Prod.mk.injEq] at h ⊢
      simp [h.1, h.2]

theorem atWordBoundary_append (p : Bool) (s rest : Str) (hr : headWord rest = false) :
    atWordBoundary p (s ++ rest) = atWordBoundary p s := by
  cases s with
  | nil =>
    show atWordBoundary p rest = atWordBoundary p []
    rw [atWordBoundary_eq, atWordBoundary_eq, hr]
    rfl
  | cons c s => rfl

theorem run_append (r : Regex) (rest : Str) (hr : headWord rest = false) :
    ∀ (p : Bool) (s : Str) (p' : Bool) (rem : Str), r.noEnd = true →
      (p', rem) ∈ r.run p s → (p', rem ++ rest) ∈ r.run p (s ++ rest) := by
  induction r with
  | eps =>
    intro p s p' rem _ h
    simp only [Regex.run, List.mem_singleton, Prod.mk.injEq] at h ⊢
    simp [h.1, h.2]
  | atom a =>
    intro p s p' rem _ h
    cases s with
    | nil => simp [Regex.run] at h
    | cons c s =>
      simp only [Regex.run, List.cons_append] at h ⊢
      split at h
      · rename_i ht
        simp only [List.mem_singleton, Prod.mk.injEq] at h
        simp [ht, h.1, h.2]
      · simp at h
  | seq a b iha ihb =>
    intro p s p' rem hn h
    simp only [Regex.noEnd, Bool.and_eq_true] at hn
    simp only [Regex.run, List.mem_flatMap] at h ⊢
    obtain ⟨⟨p1, s1⟩, h1, h2⟩ := h
    exact ⟨(p1, s1 ++ rest), iha _ _ _ _ hn.1 h1, ihb _ _ _ _ hn.2 h2⟩
  | alt a b iha ihb =>
    intro p s p' rem hn h
    simp only [Regex.noEnd, Bool.and_eq_true] at hn
    simp only [Regex.run, List.mem_append] at h ⊢
    exact h.imp (iha _ _ _ _ hn.1) (ihb _ _ _ _ hn.2)
  | opt a iha =>
    intro p s p' rem hn h
    simp only [Regex.noEnd] at hn
    simp only [Regex.run, List.mem_append, List.mem_singleton, Prod.mk.injEq] at h ⊢
    rcases h with h | h
    · exact Or.inl (iha _ _ _ _ hn h)
    · right
      simp [h.1, h.2]
  | star a =>
    intro p s p' rem _ h
    simp only [Regex.run] at h ⊢
    exact starRun_append a rest s _ _ _ h
  | plus a =>
    intro p s p' rem _ h
    cases s with
    | nil => simp [Regex.run] at h
    | cons c s =>
      simp only [Regex.run, List.cons_append] at h ⊢
      split at h
      · rename_i ht
        simp only [ht, if_true]
        exact starRun_append a rest s _ _ _ h
      · simp at h
  | wordBoundary =>
    intro p s p' rem _ h
    simp only [Regex.run, atWordBoundary_append p s rest hr] at h ⊢
    split at h
    · rename_i hb
      simp only [List.mem_singleton, Prod.mk.injEq] at h
      simp [hb, h.1, h.2]
    · simp at h
  | endText => intro p s p' rem hn; simp [Regex.noEnd] at hn

theorem isLetter_range (c : Char) :
    isLetter c = true ↔ (65 ≤ c.toNat ∧ c.toNat ≤ 90) ∨ (97 ≤ c.toNat ∧ c.toNat ≤ 122) := by
  simp [isLetter, isUpper, isLower]

theorem isAlnum_range (c : Char) :
    isAlnum c = true ↔ (65 ≤ c.toNat ∧ c.toNat ≤ 90) ∨ (97 ≤ c.toNat ∧ c.toNat ≤ 122) ∨
      (48 ≤ c.toNat ∧ c.toNat ≤ 57) := by
  simp [isAlnum, isLetter, isUpper, isLower, isDigit, or_assoc]

theorem isAlnum_isWordChar (c : Char) (h : isAlnum c = true) : isWordChar c = true := by
  simp only [isAlnum, Bool.or_eq_true] at h
  simp only [isWordChar, Bool.or_eq_true]
  exact Or.inl h

theorem isAlnum_not_isSpace (c : Char) (h : isAlnum c = true) : isSpace c = false := by
  rw [isAlnum_range] at h
  simp only [isSpace, Bool.or_eq_false_iff, Bool.and_eq_false_iff, beq_eq_false_iff_ne,
    decide_eq_false_iff_not, ne_eq]
  omega

theorem isAlnum_ne (c d : Char) (h : isAlnum c = true) (hd : isAlnum d = false) : c ≠ d := by
  intro hcd
  rw [hcd, hd] at h
  exact absurd h (by simp)

theorem foldMatch_letter (q c : Char) (hq : isLetter q = true) (hc : isLetter c = false)
    (ha : c.toNat < 128) : foldMatch q c = false := by
  have h1 : c ≠ q := fun h => by rw [h, hq] at hc; exact absurd hc (by simp)
  have h2 : c ≠ upper q := fun h => by
    rw [h, isLetter_upper q hq] at hc; exact absurd hc (by simp)
  have h3 : c ≠ lower q := fun h => by
    rw [h, isLetter_lower q hq] at hc; exact absurd hc (by simp)
  have h4 : q.toNat ≠ 0xFC := by
    rw [isLetter_range] at hq
    omega
  simp only [foldMatch, Bool.or_eq_false_iff, Bool.and_eq_false_iff, beq_eq_false_iff_ne,
    ne_eq]
  refine ⟨⟨⟨⟨⟨h1, h2⟩, h3⟩, Or.inr (by omega)⟩, Or.inr (by omega)⟩, Or.inl h4⟩

theorem run_needsLetter (r : Regex) :
    ∀ (p : Bool) (s : Str), r.needsLetter = true →
      (∀ c, s.head? = some c → isLetter c = false ∧ c.toNat < 128) → r.run p s = [] := by
  induction r with
  | atom a =>
    intro p s hn hs
    cases s with
    | nil => rfl
    | cons c s =>
      cases a with
      | fold q =>
        simp only [Regex.needsLetter] at hn
        obtain ⟨hc, ha⟩ := hs c rfl
        simp [Regex.run, Atom.test, foldMatch_letter q c hn hc ha]
      | space => simp [Regex.needsLetter] at hn
  | seq a b iha ihb =>
    intro p s hn hs
    simp only [Regex.needsLetter, Bool.or_eq_true, Bool.and_eq_true, decide_eq_true_eq] at hn
    rcases hn with hn | ⟨rfl, hn⟩
    · simp [Regex.run, iha p s hn hs]
    · simp only [Regex.run]
      split
      · simp [ihb p s hn hs]
      · simp
  | alt a b iha ihb =>
    intro p s hn hs
    simp only [Regex.needsLetter, Bool.and_eq_true] at hn
    simp [Regex.run, iha p s hn.1 hs, ihb p s hn.2 hs]
  | eps => intro p s hn; simp [Regex.needsLetter] at hn
  | opt a _ => intro p s hn; simp [Regex.needsLetter] at hn
  | star a => intro p s hn; simp [Regex.needsLetter] at hn
  | plus a => intro p s hn; simp [Regex.needsLetter] at hn
  | wordBoundary => intro p s hn; simp [Regex.needsLetter] at hn
  | endText => intro p s hn; simp [Regex.needsLetter] at hn

theorem pattern_needsLetter : pattern.needsLetter = true := by decide

theorem pattern_endsAtBoundary : pattern.endsAtBoundary = true := by decide

theorem pattern_consumes : pattern.consumes = true := by decide

theorem pattern_noEnd : pattern.noEnd = true := by decide

theorem pattern_run_midword (c : Char) (s : Str) (hc : isWordChar c = true) :
    pattern.run true (c :: s) = [] := by
  have : atWordBoundary true (c :: s) = false := by simp [atWordBoundary, hc]
  simp [pattern, Regex.run, this]

theorem deleteScan_skip (r : Regex) (rem : Str) (xs : Str) :
    ∀ p, r.deleteScan xs.length p (xs ++ rem) = r.deleteScan 0 (lastWord p xs) rem := by
  induction xs with
  | nil => intro p; rfl
  | cons x xs ih =>
    intro p
    simp only [List.length_cons, List.cons_append, Regex.deleteScan, lastWord]
    exact ih _

theorem deleteScan_no_match (r : Regex) (s : Str) :
    ∀ p, r.findFrom p s = false → r.deleteScan 0 p s = s := by
  induction s with
  | nil => intro p _; rfl
  | cons c s ih =>
    intro p h
    simp only [Regex.findFrom, Bool.or_eq_false_iff, Bool.not_eq_false',
      List.isEmpty_iff] at h
    simp only [Regex.deleteScan, Regex.matchAt, h.1, List.head?_nil, Option.map_none']
    rw [ih _ h.2]

theorem deleteAll_no_match (r : Regex) (s : Str) (h : r.MatchString s = false) :
    r.deleteAll s = s :=
  deleteScan_no_match r s false h

theorem fieldsAux_word (w : Str) (hw : ∀ c ∈ w, isSpace c = false) :
    ∀ (cur rest : Str), fieldsAux cur (w ++ rest) = fieldsAux (w.reverse ++ cur) rest := by
  induction w with
  | nil => intro cur rest; rfl
  | cons c w ih =>
    intro cur rest
    have hc : isSpace c = false := hw c (List.mem_cons_self _ _)
    simp only [List.cons_append, fieldsAux, hc, Bool.false_eq_true, if_false, List.append_eq]
    rw [ih (fun d hd => hw d (List.mem_cons_of_mem _ hd))]
    simp

theorem Fields_space_cons (c : Char) (s : Str) (hc : isSpace c = true) :
    Fields (c :: s) = Fields s := by
  simp [Fields, fieldsAux, hc]

theorem Fields_word (w : Str) (hne : w ≠ []) (hw : ∀ c ∈ w, isSpace c = false) :
    Fields w = [w] := by
  have := fieldsAux_word w hw [] []
  simp only [List.append_nil] at this
  rw [Fields, this]
  simp [fieldsAux, hne]

theorem Fields_word_space (w : Str) (hne : w ≠ []) (hw : ∀ c ∈ w, isSpace c = false)
    (c : Char) (hc : isSpace c = true) (s : Str) : Fields (w ++ c :: s) = w :: Fields s := by
  rw [Fields, fieldsAux_word w hw [] (c :: s)]
  simp [fieldsAux, hc, hne, Fields]

theorem plainName_cases (s : Str) (h : PlainName s) :
    s = [] ∨ (∃ s', s = ' ' :: s' ∧ PlainName s') ∨
      ∃ w rest, s = w ++ rest ∧ w ≠ [] ∧ (∀ c ∈ w, isAlnum c = true) ∧
        (rest = [] ∨ ∃ r', rest = ' ' :: r') ∧ PlainName rest := by
  induction s with
  | nil => exact Or.inl rfl
  | cons c s ih =>
    right
    have hs : PlainName s := fun d hd => h d (List.mem_cons_of_mem _ hd)
    rcases h c (List.mem_cons_self _ _) with hc | hc
    · right
      rcases ih hs with h1 | ⟨s', h1, _⟩ | ⟨w, rest, h1, _, hw, hr, hp⟩
      · subst h1
        exact ⟨[c], [], rfl, by simp, by simpa using hc, Or.inl rfl, by intro d hd; simp at hd⟩
      · exact ⟨[c], s, rfl, by simp, by simpa using hc, Or.inr ⟨s', h1⟩, hs⟩
      · refine ⟨c :: w, rest, by simp [h1], by simp, ?_, hr, hp⟩
        intro d hd
        simp only [List.mem_cons] at hd
        rcases hd with rfl | hd
        · exact hc
        · exact hw d hd
    · left
      exact ⟨s, by rw [hc], hs⟩

theorem plainName_suffix (s t : Str) (h : PlainName (s ++ t)) : PlainName t :=
  fun c hc => h c (List.mem_append_right _ hc)

theorem pattern_run_blank (p : Bool) (s : Str) : pattern.run p (' ' :: s) = [] := by
  apply run_needsLetter pattern p _ pattern_needsLetter
  intro c hc
  simp only [List.head?_cons, Option.some.injEq] at hc
  subst hc
  decide

theorem deleteScan_blank (p : Bool) (s : Str) :
    pattern.deleteScan 0 p (' ' :: s) = ' ' :: pattern.deleteScan 0 false s := by
  simp only [Regex.deleteScan, Regex.matchAt, pattern_run_blank, List.head?_nil,
    Option.map_none']
  rfl

theorem deleteScan_midword (rest : Str) (w : Str) (hw : ∀ c ∈ w, isAlnum c = true) :
    pattern.deleteScan 0 true (w ++ rest) = w ++ pattern.deleteScan 0 true rest := by
  induction w with
  | nil => rfl
  | cons c w ih =>
    have hc : isWordChar c = true := isAlnum_isWordChar c (hw c (List.mem_cons_self _ _))
    simp only [List.cons_append, Regex.deleteScan, Regex.matchAt, pattern_run_midword c _ hc,
      List.head?_nil, Option.map_none', hc, List.append_eq]
    rw [ih (fun d hd => hw d (List.mem_cons_of_mem _ hd))]

theorem fullMatch_false_of_run_nil (w rest : Str) (hr : headWord rest = false)
    (h : pattern.run false (w ++ rest) = []) : pattern.fullMatch w = false := by
  by_contra hc
  simp only [Bool.not_eq_false, Regex.fullMatch, List.any_eq_true, List.isEmpty_iff] at hc
  obtain ⟨⟨p', rem⟩, hm, hrem⟩ := hc
  simp only at hrem
  subst hrem
  have := run_append pattern rest hr false w p' [] pattern_noEnd hm
  rw [h] at this
  simp at this

/-- The term eraser on a plain name: no word it leaves behind is a term. -/
theorem eraser_words (n : Nat) :
    ∀ (s : Str), s.length ≤ n → PlainName s → ∀ p, (p = true → headWord s = false) →
      ∀ w ∈ Fields (pattern.deleteScan 0 p s), pattern.fullMatch w = false := by
  induction n with
  | zero =>
    intro s hl _ p _ w hw
    have : s = [] := List.length_eq_zero.1 (Nat.le_zero.1 hl)
    subst this
    simp [Regex.deleteScan, Fields, fieldsAux] at hw
  | succ n ih =>
    intro s hl hp p hG w hw
    rcases plainName_cases s hp with h1 | ⟨s', h1, hp'⟩ | ⟨u, rest, h1, hne, hu, hr, hprest⟩
    · subst h1
      simp [Regex.deleteScan, Fields, fieldsAux] at hw
    · subst h1
      rw [deleteScan_blank, Fields_space_cons _ _ (by decide)] at hw
      exact ih s' (by simpa using hl) hp' false (by simp) w hw
    · subst h1
      obtain ⟨c, u', rfl⟩ := List.exists_cons_of_ne_nil hne
      have hcw : isWordChar c = true := isAlnum_isWordChar c (hu c (List.mem_cons_self _ _))
      have hpf : p = false := by
        cases p with
        | false => rfl
        | true =>
          have := hG rfl
          simp [headWord, hcw] at this
      subst hpf
      have hrw : headWord rest = false := by
        rcases hr with rfl | ⟨r', rfl⟩
        · rfl
        · show isWordChar ' ' = false
          decide
      have husp : ∀ d ∈ c :: u', isSpace d = false := fun d hd => isAlnum_not_isSpace d (hu d hd)
      cases hm : pattern.run false (c :: u' ++ rest) with
      | nil =>
        have hfm := fullMatch_false_of_run_nil (c :: u') rest hrw hm
        have hout : pattern.deleteScan 0 false (c :: u' ++ rest) =
            (c :: u') ++ pattern.deleteScan 0 true rest := by
          simp only [List.cons_append] at hm ⊢
          simp only [Regex.deleteScan, Regex.matchAt, hm, List.head?_nil, Option.map_none', hcw]
          rw [deleteScan_midword rest u' (fun d hd => hu d (List.mem_cons_of_mem _ hd))]
        rw [hout] at hw
        rcases hr with rfl | ⟨r', rfl⟩
        · simp only [Regex.deleteScan, List.append_nil] at hw
          rw [Fields_word _ (by simp) husp] at hw
          simp only [List.mem_singleton] at hw
          rw [hw]
          exact hfm
        · rw [deleteScan_blank, Fields_word_space _ (by simp) husp ' ' (by decide)] at hw
          simp only [List.mem_cons] at hw
          rcases hw with rfl | hw
          · exact hfm
          · refine ih r' ?_ (plainName_suffix [' '] r' hprest) false (by simp) w hw
            simp only [List.length_append, List.length_cons] at hl
            omega
      | cons m ms =>
        obtain ⟨p', rem⟩ := m
        have hmem : (p', rem) ∈ pattern.run false (c :: u' ++ rest) := by
          rw [hm]; exact List.mem_cons_self _ _
        obtain ⟨consumed, hs, hp', hcons⟩ := run_spec pattern _ _ _ _ hmem
        have hcne := hcons pattern_consumes
        obtain ⟨c0, xs, rfl⟩ := List.exists_cons_of_ne_nil hcne
        have hb := run_endsAtBoundary pattern _ _ _ _ pattern_endsAtBoundary hmem
        simp only [List.cons_append, List.cons.injEq] at hs
        obtain ⟨rfl, hs1⟩ := hs
        have hout : pattern.deleteScan 0 false (c :: u' ++ rest) =
            pattern.deleteScan 0 p' rem := by
          simp only [List.cons_append] at hm ⊢
          simp only [Regex.deleteScan, Regex.matchAt, hm, List.head?_cons, Option.map_some']
          rw [hs1]
          have hlen : rem.length ≤ (xs ++ rem).length := by simp
          rw [if_pos hlen]
          have hx : (xs ++ rem).length - rem.length = xs.length := by simp
          rw [hx, deleteScan_skip, hp']
          rfl
        rw [hout] at hw
        have hprem : PlainName rem := by
          have : PlainName (c :: (xs ++ rem)) := by
            rw [← hs1]; exact hp
          exact plainName_suffix (c :: xs) rem this
        refine ih rem ?_ hprem p' ?_ w hw
        · have : (c :: u' ++ rest).length = (c :: (xs ++ rem)).length := by
            simp only [List.cons_append, hs1]
          simp only [List.length_cons, List.length_append] at this hl ⊢
          omega
        · intro hpt
          rw [atWordBoundary_eq, hpt] at hb
          simpa using hb

theorem eraser_no_term (s : Str) (h : PlainName s) :
    ∀ w ∈ Fields (pattern.deleteAll s), pattern.fullMatch w = false :=
  eraser_words s.length s (Nat.le_refl _) h false (by simp)

theorem sr_eq : sr =
    [([',', '.'], ['/']), (['.', ','], ['/']), (['.', ' ', ','], ['/']),
     ([',', ' ', '.'], ['/']), ([' ', '.', ' '], ['/']), (['.', ' '], ['/']),
     ([' ', '.'], ['/']), (['.'], ['/']), ([' ', ',', ' '], ['/']), ([',', ' '], ['/']),
     ([' ', ','], ['/']), ([','], ['/']), ([' ', 'a', ' '], [' ']), ([' ', '&', ' '], [' ']),
     (['&'], [' ']), (['('], []), ([')'], []), (['\''], [' ']), (['-'], [' ']), (['*'], []),
     (['/'], [])] := by
  decide

theorem beq_false_of_isAlnum (d c : Char) (hc : isAlnum c = true) (hd : isAlnum d = false) :
    (d == c) = false := by
  rw [beq_eq_false_iff_ne]
  exact (isAlnum_ne c d hc hd).symm

theorem sr_lookup_alnum (c : Char) (s : Str) (hc : isAlnum c = true) :
    replacerLookup sr (c :: s) = none := by
  have h1 := beq_false_of_isAlnum ',' c hc (by decide)
  have h2 := beq_false_of_isAlnum '.' c hc (by decide)
  have h3 := beq_false_of_isAlnum ' ' c hc (by decide)
  have h4 := beq_false_of_isAlnum '&' c hc (by decide)
  have h5 := beq_false_of_isAlnum '(' c hc (by decide)
  have h6 := beq_false_of_isAlnum ')' c hc (by decide)
  have h7 := beq_false_of_isAlnum '\'' c hc (by decide)
  have h8 := beq_false_of_isAlnum '-' c hc (by decide)
  have h9 := beq_false_of_isAlnum '*' c hc (by decide)
  have h10 := beq_false_of_isAlnum '/' c hc (by decide)
  simp only [sr_eq, replacerLookup, List.isPrefixOf, h1, h2, h3, h4, h5, h6, h7, h8, h9, h10,
    Bool.false_and, Bool.false_eq_true, if_false]

theorem sr_lookup_article (s : Str) :
    replacerLookup sr (' ' :: 'a' :: ' ' :: s) = some ([' ', 'a', ' '], [' ']) := by
  simp [sr_eq, replacerLookup, List.isPrefixOf]

theorem sr_lookup_blank (s : Str) (hs : PlainName s) (ha : ∀ s2, s ≠ 'a' :: ' ' :: s2) :
    replacerLookup sr (' ' :: s) = none := by
  cases s with
  | nil => decide
  | cons d s2 =>
    have hd1 : ('.' == d) = false := by
      rcases hs d (List.mem_cons_self _ _) with h | h
      · exact beq_false_of_isAlnum _ _ h (by decide)
      · rw [h]; decide
    have hd2 : (',' == d) = false := by
      rcases hs d (List.mem_cons_self _ _) with h | h
      · exact beq_false_of_isAlnum _ _ h (by decide)
      · rw [h]; decide
    have hd3 : ('&' == d) = false := by
      rcases hs d (List.mem_cons_self _ _) with h | h
      · exact beq_false_of_isAlnum _ _ h (by decide)
      · rw [h]; decide
    have hd4 : ('a' == d && [' '].isPrefixOf s2) = false := by
      by_cases hda : d = 'a'
      · subst hda
        cases s2 with
        | nil => rfl
        | cons e s3 =>
          have : e ≠ ' ' := fun he => ha s3 (by rw [he])
          have he : (' ' == e) = false := by
            rw [beq_eq_false_iff_ne]; exact fun h => this h.symm
          simp [List.isPrefixOf, he]
      · have : ('a' == d) = false := by
          rw [beq_eq_false_iff_ne]; exact fun h => hda h.symm
        simp [this]
    have e1 : (',' == ' ') = false := by decide
    have e2 : ('.' == ' ') = false := by decide
    have e3 : ('&' == ' ') = false := by decide
    have e4 : ('(' == ' ') = false := by decide
    have e5 : (')' == ' ') = false := by decide
    have e6 : ('\'' == ' ') = false := by decide
    have e7 : ('-' == ' ') = false := by decide
    have e8 : ('*' == ' ') = false := by decide
    have e9 : ('/' == ' ') = false := by decide
    have e0 : (' ' == ' ') = true := by decide
    simp only [sr_eq, replacerLookup, List.isPrefixOf, e0, e1, e2, e3, e4, e5, e6, e7, e8, e9,
      hd1, hd2, hd3, hd4, Bool.false_and, Bool.true_and, Bool.false_eq_true, if_false]

theorem srScan_alnum (c : Char) (s : Str) (hc : isAlnum c = true) :
    replacerScan sr 0 (c :: s) = c :: replacerScan sr 0 s := by
  simp only [replacerScan, sr_lookup_alnum c s hc]

theorem srScan_article (s : Str) :
    replacerScan sr 0 (' ' :: 'a' :: ' ' :: s) = ' ' :: replacerScan sr 0 s := by
  simp only [replacerScan, sr_lookup_article]
  rfl

theorem srScan_blank (s : Str) (hs : PlainName s) (ha : ∀ s2, s ≠ 'a' :: ' ' :: s2) :
    replacerScan sr 0 (' ' :: s) = ' ' :: replacerScan sr 0 s := by
  simp only [replacerScan, sr_lookup_blank s hs ha]

theorem srScan_word (rest : Str) (w : Str) (hw : ∀ c ∈ w, isAlnum c = true) :
    replacerScan sr 0 (w ++ rest) = w ++ replacerScan sr 0 rest := by
  induction w with
  | nil => rfl
  | cons c w ih =>
    rw [List.cons_append, srScan_alnum c _ (hw c (List.mem_cons_self _ _)),
      ih (fun d hd => hw d (List.mem_cons_of_mem _ hd))]
    rfl

/-- The replacer on a plain name after a blank: it writes the blank, and goes on either
behind it or behind a following article. -/
theorem srScan_blank_cases (s : Str) (hs : PlainName s) :
    ∃ t, replacerScan sr 0 (' ' :: s) = ' ' :: replacerScan sr 0 t ∧ t.length ≤ s.length ∧
      PlainName t ∧ ∀ w ∈ Fields t, w ∈ Fields s := by
  by_cases ha : ∃ s2, s = 'a' :: ' ' :: s2
  · obtain ⟨s2, rfl⟩ := ha
    refine ⟨s2, srScan_article s2, by simp only [List.length_cons]; omega, plainName_suffix ['a', ' '] s2 hs, ?_⟩
    intro w hw
    have : Fields ('a' :: ' ' :: s2) = ['a'] :: Fields s2 :=
      Fields_word_space ['a'] (by simp) (by decide) ' ' (by decide) s2
    rw [this]
    exact List.mem_cons_of_mem _ hw
  · refine ⟨s, srScan_blank s hs (fun s2 h => ha ⟨s2, h⟩), Nat.le_refl _, hs, fun w hw => hw⟩

theorem srScan_plain (n : Nat) :
    ∀ (s : Str), s.length ≤ n → PlainName s →
      PlainName (replacerScan sr 0 s) ∧ ∀ w ∈ Fields (replacerScan sr 0 s), w ∈ Fields s := by
  induction n with
  | zero =>
    intro s hl _
    have : s = [] := List.length_eq_zero.1 (Nat.le_zero.1 hl)
    subst this
    exact ⟨by intro c hc; simp [replacerScan] at hc, by simp [replacerScan]⟩
  | succ n ih =>
    intro s hl hp
    rcases plainName_cases s hp with h1 | ⟨s', h1, hp'⟩ | ⟨u, rest, h1, hne, hu, hr, hprest⟩
    · subst h1
      exact ⟨by intro c hc; simp [replacerScan] at hc, by simp [replacerScan]⟩
    · subst h1
      obtain ⟨t, ht, htl, htp, htw⟩ := srScan_blank_cases s' hp'
      obtain ⟨ih1, ih2⟩ := ih t (by simp only [List.length_cons] at hl; omega) htp
      rw [ht]
      refine ⟨?_, ?_⟩
      · intro c hc
        simp only [List.mem_cons] at hc
        rcases hc with rfl | hc
        · exact Or.inr rfl
        · exact ih1 c hc
      · intro w hw
        rw [Fields_space_cons _ _ (by decide)] at hw ⊢
        exact htw w (ih2 w hw)
    · subst h1
      have husp : ∀ d ∈ u, isSpace d = false := fun d hd => isAlnum_not_isSpace d (hu d hd)
      rw [srScan_word rest u hu]
      rcases hr with rfl | ⟨r', rfl⟩
      · refine ⟨?_, ?_⟩
        · intro c hc
          simp only [replacerScan, List.append_nil] at hc
          exact Or.inl (hu c hc)
        · intro w hw
          simpa [replacerScan] using hw
      · have hpr' : PlainName r' := plainName_suffix [' '] r' hprest
        obtain ⟨t, ht, htl, htp, htw⟩ := srScan_blank_cases r' hpr'
        have hlen : t.length ≤ n := by
          have hpos : 0 < u.length := List.length_pos.2 hne
          simp only [List.length_append, List.length_cons] at hl
          omega
        obtain ⟨ih1, ih2⟩ := ih t hlen htp
        rw [ht]
        refine ⟨?_, ?_⟩
        · intro c hc
          simp only [List.mem_append, List.mem_cons] at hc
          rcases hc with hc | rfl | hc
          · exact Or.inl (hu c hc)
          · exact Or.inr rfl
          · exact ih1 c hc
        · intro w hw
          rw [Fields_word_space u hne husp ' ' (by decide)] at hw ⊢
          simp only [List.mem_cons] at hw ⊢
          exact hw.imp id fun h => htw w (ih2 w h)

theorem srReplace_plain (s : Str) (hp : PlainName s) :
    PlainName (srReplace s) ∧ ∀ w ∈ Fields (srReplace s), w ∈ Fields s :=
  srScan_plain s.length s (Nat.le_refl _) hp

theorem char_eq_iff_toNat (c d : Char) : c = d ↔ c.toNat = d.toNat :=
  ⟨fun h => by rw [h], char_eq_of_toNat c d⟩

theorem upper_toNat (c : Char) :
    (upper c).toNat = if 97 ≤ c.toNat ∧ c.toNat ≤ 122 then c.toNat - 32 else c.toNat := by
  unfold upper
  by_cases h : 97 ≤ c.toNat ∧ c.toNat ≤ 122
  · have : isLower c = true := by simp [isLower, h]
    rw [if_pos this, if_pos h, toNat_ofNat_small _ (by omega)]
  · have : ¬ isLower c = true := by simpa [isLower] using h
    rw [if_neg this, if_neg h]

theorem lower_toNat (c : Char) :
    (lower c).toNat = if 65 ≤ c.toNat ∧ c.toNat ≤ 90 then c.toNat + 32 else c.toNat := by
  unfold lower
  by_cases h : 65 ≤ c.toNat ∧ c.toNat ≤ 90
  · have : isUpper c = true := by simp [isUpper, h]
    rw [if_pos this, if_pos h, toNat_ofNat_small _ (by omega)]
  · have : ¬ isUpper c = true := by simpa [isUpper] using h
    rw [if_neg this, if_neg h]

theorem caseEq_toNat (a b : Char) (h : caseEq a b) :
    b.toNat = a.toNat ∨ (97 ≤ a.toNat ∧ a.toNat ≤ 122 ∧ b.toNat + 32 = a.toNat) ∨
      (65 ≤ a.toNat ∧ a.toNat ≤ 90 ∧ b.toNat = a.toNat + 32) := by
  rcases h with h | h | h
  · exact Or.inl (by rw [h])
  · have := upper_toNat a
    rw [← h] at this
    split at this <;> omega
  · have := lower_toNat a
    rw [← h] at this
    split at this <;> omega

theorem isWordChar_iff (c : Char) :
    isWordChar c = true ↔ (65 ≤ c.toNat ∧ c.toNat ≤ 90) ∨ (97 ≤ c.toNat ∧ c.toNat ≤ 122) ∨
      (48 ≤ c.toNat ∧ c.toNat ≤ 57) ∨ c.toNat = 95 := by
  have h : c = '_' ↔ c.toNat = 95 := char_eq_iff_toNat c '_'
  simp only [isWordChar, isLetter, isUpper, isLower, isDigit, Bool.or_eq_true, Bool.and_eq_true,
    decide_eq_true_eq, beq_iff_eq, h]
  omega

theorem isSpace_iff (c : Char) :
    isSpace c = true ↔ c.toNat = 0x20 ∨ (0x09 ≤ c.toNat ∧ c.toNat ≤ 0x0D) ∨ c.toNat = 0x85 ∨
      c.toNat = 0xA0 ∨ c.toNat = 0x1680 ∨ (0x2000 ≤ c.toNat ∧ c.toNat ≤ 0x200A) ∨
      c.toNat = 0x2028 ∨ c.toNat = 0x2029 ∨ c.toNat = 0x202F ∨ c.toNat = 0x205F ∨
      c.toNat = 0x3000 := by
  simp only [isSpace, Bool.or_eq_true, Bool.and_eq_true, decide_eq_true_eq, beq_iff_eq]
  omega

theorem bool_eq_of_iff {a b : Bool} (h : a = true ↔ b = true) : a = b := by
  cases a <;> cases b <;> simp at h ⊢

theorem caseEq_isWordChar (a b : Char) (h : caseEq a b) : isWordChar b = isWordChar a := by
  apply bool_eq_of_iff
  rw [isWordChar_iff, isWordChar_iff]
  have := caseEq_toNat a b h
  omega

theorem caseEq_isSpace (a b : Char) (h : caseEq a b) : isSpace b = isSpace a := by
  apply bool_eq_of_iff
  rw [isSpace_iff, isSpace_iff]
  have := caseEq_toNat a b h
  omega

theorem caseEq_isAlnum (a b : Char) (h : caseEq a b) : isAlnum b = isAlnum a := by
  apply bool_eq_of_iff
  rw [isAlnum_range, isAlnum_range]
  have := caseEq_toNat a b h
  omega

theorem foldMatch_iff (q c : Char) :
    foldMatch q c = true ↔ c.toNat = q.toNat ∨ c.toNat = (upper q).toNat ∨
      c.toNat = (lower q).toNat ∨ ((lower q).toNat = 107 ∧ c.toNat = 0x212A) ∨
      ((lower q).toNat = 115 ∧ c.toNat = 0x17F) ∨ (q.toNat = 0xFC ∧ c.toNat = 0xDC) := by
  have hk : lower q = 'k' ↔ (lower q).toNat = 107 := char_eq_iff_toNat _ 'k'
  have hs : lower q = 's' ↔ (lower q).toNat = 115 := char_eq_iff_toNat _ 's'
  simp only [foldMatch, Bool.or_eq_true, Bool.and_eq_true, beq_iff_eq, char_eq_iff_toNat c q,
    char_eq_iff_toNat c (upper q), char_eq_iff_toNat c (lower q), hk, hs, or_assoc]

theorem fold_arith (x y z u l : Nat)
    (hab : y = x ∨ (97 ≤ x ∧ x ≤ 122 ∧ y + 32 = x) ∨ (65 ≤ x ∧ x ≤ 90 ∧ y = x + 32))
    (hu : u = if 97 ≤ z ∧ z ≤ 122 then z - 32 else z)
    (hl : l = if 65 ≤ z ∧ z ≤ 90 then z + 32 else z) :
    (y = z ∨ y = u ∨ y = l ∨ (l = 107 ∧ y = 8490) ∨ (l = 115 ∧ y = 383) ∨ (z = 252 ∧ y = 220)) ↔
    (x = z ∨ x = u ∨ x = l ∨ (l = 107 ∧ x = 8490) ∨ (l = 115 ∧ x = 383) ∨ (z = 252 ∧ x = 220)) := by
  rcases hab with rfl | ⟨h1, h2, h3⟩ | ⟨h1, h2, h3⟩
  · exact Iff.rfl
  · have e1 : ¬ (l = 107 ∧ x = 8490) := by omega
    have e2 : ¬ (l = 115 ∧ x = 383) := by omega
    have e3 : ¬ (z = 252 ∧ x = 220) := by omega
    have f1 : ¬ (l = 107 ∧ y = 8490) := by omega
    have f2 : ¬ (l = 115 ∧ y = 383) := by omega
    have f3 : ¬ (z = 252 ∧ y = 220) := by omega
    simp only [e1, e2, e3, f1, f2, f3, or_false]
    split at hu <;> split at hl <;> omega
  · have e1 : ¬ (l = 107 ∧ x = 8490) := by omega
    have e2 : ¬ (l = 115 ∧ x = 383) := by omega
    have e3 : ¬ (z = 252 ∧ x = 220) := by omega
    have f1 : ¬ (l = 107 ∧ y = 8490) := by omega
    have f2 : ¬ (l = 115 ∧ y = 383) := by omega
    have f3 : ¬ (z = 252 ∧ y = 220) := by omega
    simp only [e1, e2, e3, f1, f2, f3, or_false]
    split at hu <;> split at hl <;> omega

theorem caseEq_foldMatch (q a b : Char) (h : caseEq a b) : foldMatch q b = foldMatch q a := by
  apply bool_eq_of_iff
  rw [foldMatch_iff, foldMatch_iff]
  exact fold_arith a.toNat b.toNat q.toNat (upper q).toNat (lower q).toNat (caseEq_toNat a b h)
    (upper_toNat q) (lower_toNat q)

theorem spaceClass_iff (c : Char) :
    Atom.test .space c = true ↔
      c.toNat = 9 ∨ c.toNat = 10 ∨ c.toNat = 12 ∨ c.toNat = 13 ∨ c.toNat = 32 := by
  have h1 : c = '\t' ↔ c.toNat = 9 := char_eq_iff_toNat c '\t'
  have h2 : c = '\n' ↔ c.toNat = 10 := char_eq_iff_toNat c '\n'
  have h3 : c = '\r' ↔ c.toNat = 13 := char_eq_iff_toNat c '\r'
  have h4 : c = ' ' ↔ c.toNat = 32 := char_eq_iff_toNat c ' '
  simp only [Atom.test, Bool.or_eq_true, beq_iff_eq, h1, h2, h3, h4, or_assoc]

theorem caseEq_test (x : Atom) (a b : Char) (h : caseEq a b) : x.test b = x.test a := by
  cases x with
  | fold q => exact caseEq_foldMatch q a b h
  | space =>
    apply bool_eq_of_iff
    rw [spaceClass_iff, spaceClass_iff]
    have := caseEq_toNat a b h
    omega

theorem forall₂_append' {α β : Type} {R : α → β → Prop} {l1 l1' : List α} {l2 l2' : List β}
    (h : List.Forall₂ R l1 l2) (h' : List.Forall₂ R l1' l2') :
    List.Forall₂ R (l1 ++ l1') (l2 ++ l2') := by
  induction h with
  | nil => exact h'
  | cons hab _ ih => exact List.Forall₂.cons hab ih

theorem forall₂_flatMap {α β γ δ : Type} {R : α → β → Prop} {S : γ → δ → Prop}
    {f : α → List γ} {g : β → List δ} {l1 : List α} {l2 : List β}
    (h : List.Forall₂ R l1 l2) (hfg : ∀ x y, R x y → List.Forall₂ S (f x) (g y)) :
    List.Forall₂ S (l1.flatMap f) (l2.flatMap g) := by
  induction h with
  | nil => exact List.Forall₂.nil
  | cons hab _ ih =>
    simp only [List.flatMap_cons]
    exact forall₂_append' (hfg _ _ hab) ih

theorem forall₂_mem_right {α β : Type} {R : α → β → Prop} {l1 : List α} {l2 : List β}
    (h : List.Forall₂ R l1 l2) : ∀ y ∈ l2, ∃ x ∈ l1, R x y := by
  induction h with
  | nil => intro y hy; simp at hy
  | cons hab _ ih =>
    intro y hy
    simp only [List.mem_cons] at hy
    rcases hy with rfl | hy
    · exact ⟨_, List.mem_cons_self _ _, hab⟩
    · obtain ⟨x, hx, hr⟩ := ih y hy
      exact ⟨x, List.mem_cons_of_mem _ hx, hr⟩

theorem starRun_caseEq (a : Atom) {s t : Str} (h : List.Forall₂ caseEq s t) :
    ∀ p, List.Forall₂ resEq (starRun a p s) (starRun a p t) := by
  induction h with
  | nil => intro p; exact List.Forall₂.cons ⟨rfl, List.Forall₂.nil⟩ List.Forall₂.nil
  | @cons c d s' t' hab hst ih =>
    intro p
    have hself : resEq (p, c :: s') (p, d :: t') := ⟨rfl, List.Forall₂.cons hab hst⟩
    simp only [starRun, caseEq_test a c d hab, caseEq_isWordChar c d hab]
    split
    · exact forall₂_append' (ih _) (List.Forall₂.cons hself List.Forall₂.nil)
    · exact List.Forall₂.cons hself List.Forall₂.nil

theorem atWordBoundary_caseEq (p : Bool) {s t : Str} (h : List.Forall₂ caseEq s t) :
    atWordBoundary p t = atWordBoundary p s := by
  cases h with
  | nil => rfl
  | cons hab _ => simp only [atWordBoundary, caseEq_isWordChar _ _ hab]

theorem run_caseEq (r : Regex) :
    ∀ (p : Bool) (s t : Str), List.Forall₂ caseEq s t →
      List.Forall₂ resEq (r.run p s) (r.run p t) := by
  induction r with
  | eps =>
    intro p s t h
    exact List.Forall₂.cons ⟨rfl, h⟩ List.Forall₂.nil
  | atom a =>
    intro p s t h
    cases h with
    | nil => exact List.Forall₂.nil
    | cons hab hst =>
      simp only [Regex.run, caseEq_test a _ _ hab, caseEq_isWordChar _ _ hab]
      split
      · exact List.Forall₂.cons ⟨rfl, hst⟩ List.Forall₂.nil
      · exact List.Forall₂.nil
  | seq a b iha ihb =>
    intro p s t h
    simp only [Regex.run]
    refine forall₂_flatMap (iha p s t h) ?_
    rintro ⟨p1, s1⟩ ⟨p2, s2⟩ ⟨hp, hs⟩
    simp only at hp hs ⊢
    subst hp
    exact ihb p1 s1 s2 hs
  | alt a b iha ihb =>
    intro p s t h
    simp only [Regex.run]
    exact forall₂_append' (iha p s t h) (ihb p s t h)
  | opt a iha =>
    intro p s t h
    simp only [Regex.run]
    exact forall₂_append' (iha p s t h) (List.Forall₂.cons ⟨rfl, h⟩ List.Forall₂.nil)
  | star a =>
    intro p s t h
    simp only [Regex.run]
    exact starRun_caseEq a h p
  | plus a =>
    intro p s t h
    cases h with
    | nil => exact List.Forall₂.nil
    | cons hab hst =>
      simp only [Regex.run, caseEq_test a _ _ hab, caseEq_isWordChar _ _ hab]
      split
      · exact starRun_caseEq a hst _
      · exact List.Forall₂.nil
  | wordBoundary =>
    intro p s t h
    simp only [Regex.run, atWordBoundary_caseEq p h]
    split
    · exact List.Forall₂.cons ⟨rfl, h⟩ List.Forall₂.nil
    · exact List.Forall₂.nil
  | endText =>
    intro p s t h
    have : t.isEmpty = s.isEmpty := by
      cases h <;> rfl
    simp only [Regex.run, this]
    split
    · exact List.Forall₂.cons ⟨rfl, h⟩ List.Forall₂.nil
    · exact List.Forall₂.nil

theorem any_resEq {l1 l2 : List (Bool × Str)} (h : List.Forall₂ resEq l1 l2) :
    (l2.any fun m => m.2.isEmpty) = l1.any fun m => m.2.isEmpty := by
  induction h with
  | nil => rfl
  | @cons x y _ _ hab _ ih =>
    have : y.2.isEmpty = x.2.isEmpty := by
      obtain ⟨_, hs⟩ := hab
      revert hs
      generalize x.2 = u
      generalize y.2 = v
      intro hs
      cases hs <;> rfl
    simp only [List.any_cons, this, ih]

theorem fullMatch_caseEq (r : Regex) (s t : Str) (h : List.Forall₂ caseEq s t) :
    r.fullMatch t = r.fullMatch s :=
  any_resEq (run_caseEq r false s t h)

theorem titleLoop_caseEq (s : Str) :
    ∀ (mw wm : Bool), List.Forall₂ caseEq s (titleLoop mw wm s) := by
  induction s with
  | nil => intro mw wm; exact List.Forall₂.nil
  | cons c s ih =>
    intro mw wm
    simp only [titleLoop]
    split
    · refine List.Forall₂.cons ?_ (ih _ _)
      split
      · split
        · exact Or.inr (Or.inr rfl)
        · exact Or.inr (Or.inl rfl)
      · split
        · exact Or.inr (Or.inr rfl)
        · exact Or.inr (Or.inl rfl)
    · exact List.Forall₂.cons (Or.inl rfl) (ih _ _)

theorem fieldsAux_caseEq {s t : Str} (h : List.Forall₂ caseEq s t) :
    ∀ (cur cur' : Str), List.Forall₂ caseEq cur cur' →
      List.Forall₂ (List.Forall₂ caseEq) (fieldsAux cur s) (fieldsAux cur' t) := by
  induction h with
  | nil =>
    intro cur cur' hc
    have he : cur'.isEmpty = cur.isEmpty := by cases hc <;> rfl
    simp only [fieldsAux, he]
    split
    · exact List.Forall₂.nil
    · exact List.Forall₂.cons (List.rel_reverse hc) List.Forall₂.nil
  | cons hab _ ih =>
    intro cur cur' hc
    have he : cur'.isEmpty = cur.isEmpty := by cases hc <;> rfl
    simp only [fieldsAux, he, caseEq_isSpace _ _ hab]
    split
    · split
      · exact ih [] [] List.Forall₂.nil
      · exact List.Forall₂.cons (List.rel_reverse hc) (ih [] [] List.Forall₂.nil)
    · exact ih _ _ (List.Forall₂.cons hab hc)

theorem Fields_caseEq {s t : Str} (h : List.Forall₂ caseEq s t) :
    List.Forall₂ (List.Forall₂ caseEq) (Fields s) (Fields t) :=
  fieldsAux_caseEq h [] [] List.Forall₂.nil

theorem plainName_caseEq {s t : Str} (h : List.Forall₂ caseEq s t) (hp : PlainName s) :
    PlainName t := by
  induction h with
  | nil => exact hp
  | @cons a b s' t' hab _ ih =>
    intro c hc
    simp only [List.mem_cons] at hc
    rcases hc with rfl | hc
    · rcases hp a (List.mem_cons_self _ _) with h1 | h1
      · left
        rw [caseEq_isAlnum a c hab, h1]
      · right
        subst h1
        rcases hab with h2 | h2 | h2
        · exact h2
        · rw [h2]; decide
        · rw [h2]; decide
    · exact ih (fun d hd => hp d (List.mem_cons_of_mem _ hd)) c hc

theorem fieldsAux_good (s : Str) :
    ∀ (cur w : Str), (∀ c ∈ cur, isSpace c = false) → w ∈ fieldsAux cur s →
      w ≠ [] ∧ ∀ c ∈ w, isSpace c = false := by
  induction s with
  | nil =>
    intro cur w hcur hw
    simp only [fieldsAux] at hw
    split at hw
    · simp at hw
    · rename_i hne
      simp only [List.mem_singleton] at hw
      subst hw
      refine ⟨?_, fun c hc => hcur c (List.mem_reverse.1 hc)⟩
      intro h
      apply hne
      rw [List.reverse_eq_nil_iff.1 h]
      rfl
  | cons d s ih =>
    intro cur w hcur hw
    simp only [fieldsAux] at hw
    split at hw
    · split at hw
      · exact ih [] w (by simp) hw
      · rename_i hne
        simp only [List.mem_cons] at hw
        rcases hw with rfl | hw
        · refine ⟨?_, fun c hc => hcur c (List.mem_reverse.1 hc)⟩
          intro h
          apply hne
          rw [List.reverse_eq_nil_iff.1 h]
          rfl
        · exact ih [] w (by simp) hw
    · rename_i hd
      refine ih (d :: cur) w ?_ hw
      intro c hc
      simp only [List.mem_cons] at hc
      rcases hc with rfl | hc
      · simpa using hd
      · exact hcur c hc

theorem Fields_good (s w : Str) (hw : w ∈ Fields s) : w ≠ [] ∧ ∀ c ∈ w, isSpace c = false :=
  fieldsAux_good s [] w (by simp) hw

theorem Fields_joinSpace (ws : List Str) (h : ∀ w ∈ ws, w ≠ [] ∧ ∀ c ∈ w, isSpace c = false) :
    Fields (joinSpace ws) = ws := by
  induction ws with
  | nil => rfl
  | cons w ws ih =>
    obtain ⟨hne, hsp⟩ := h w (List.mem_cons_self _ _)
    cases ws with
    | nil => exact Fields_word w hne hsp
    | cons w2 ws2 =>
      simp only [joinSpace]
      rw [Fields_word_space w hne hsp ' ' (by decide), ih (fun v hv => h v (List.mem_cons_of_mem _ hv))]

theorem Fields_dropWhile (s : Str) : Fields (s.dropWhile isSpace) = Fields s := by
  induction s with
  | nil => rfl
  | cons c s ih =>
    simp only [List.dropWhile_cons]
    split
    · rename_i hc
      rw [ih, Fields_space_cons c s hc]
    · rfl

theorem fieldsAux_blanks (sp : Str) (h : ∀ c ∈ sp, isSpace c = true) : fieldsAux [] sp = [] := by
  induction sp with
  | nil => rfl
  | cons c sp ih =>
    simp only [fieldsAux, h c (List.mem_cons_self _ _), if_true, List.isEmpty_nil]
    exact ih (fun d hd => h d (List.mem_cons_of_mem _ hd))

theorem fieldsAux_trailing (sp : Str) (h : ∀ c ∈ sp, isSpace c = true) (s : Str) :
    ∀ cur, fieldsAux cur (s ++ sp) = fieldsAux cur s := by
  induction s with
  | nil =>
    intro cur
    cases sp with
    | nil => rfl
    | cons c sp =>
      simp only [List.nil_append, fieldsAux, h c (List.mem_cons_self _ _), if_true]
      rw [fieldsAux_blanks sp (fun d hd => h d (List.mem_cons_of_mem _ hd))]
  | cons d s ih =>
    intro cur
    simp only [List.cons_append, fieldsAux, List.append_eq, ih]

theorem Fields_TrimSpace (s : Str) : Fields (TrimSpace s) = Fields s := by
  unfold TrimSpace
  rw [← Fields_dropWhile s]
  generalize s.dropWhile isSpace = t
  have hsplit := List.takeWhile_append_dropWhile isSpace t.reverse
  have ht : t = (t.reverse.dropWhile isSpace).reverse ++ (t.reverse.takeWhile isSpace).reverse := by
    rw [← List.reverse_append, hsplit, List.reverse_reverse]
  have hsp : ∀ c ∈ (t.reverse.takeWhile isSpace).reverse, isSpace c = true :=
    fun c hc => List.mem_takeWhile_imp (List.mem_reverse.1 hc)
  conv_rhs => rw [ht]
  exact (fieldsAux_trailing _ hsp _ []).symm

theorem TrimSpace_id (s : Str) (hh : ∀ c, s.head? = some c → isSpace c = false)
    (hl : ∀ c, s.getLast? = some c → isSpace c = false) : TrimSpace s = s := by
  have h1 : ∀ t : Str, (∀ c, t.head? = some c → isSpace c = false) → t.dropWhile isSpace = t := by
    intro t ht
    cases t with
    | nil => rfl
    | cons c t =>
      exact List.dropWhile_cons_of_neg (by simp [ht c rfl])
  unfold TrimSpace
  rw [h1 s hh, h1 s.reverse (by rw [List.head?_reverse]; exact hl), List.reverse_reverse]

theorem joinSpace_head (w : Str) (ws : List Str) (hne : w ≠ []) :
    (joinSpace (w :: ws)).head? = w.head? := by
  cases ws with
  | nil => rfl
  | cons w2 ws2 =>
    simp only [joinSpace]
    exact List.head?_append_of_ne_nil w hne

theorem joinSpace_ne_nil (w : Str) (ws : List Str) (hne : w ≠ []) : joinSpace (w :: ws) ≠ [] := by
  cases ws with
  | nil => exact hne
  | cons w2 ws2 =>
    simp only [joinSpace]
    intro h
    exact hne (List.append_eq_nil.1 h).1

theorem joinSpace_last (ws : List Str) (h : ∀ w ∈ ws, w ≠ []) (c : Char)
    (hc : (joinSpace ws).getLast? = some c) : ∃ w ∈ ws, c ∈ w := by
  induction ws with
  | nil => simp [joinSpace] at hc
  | cons w ws ih =>
    cases ws with
    | nil =>
      simp only [joinSpace] at hc
      exact ⟨w, List.mem_singleton.2 rfl, List.mem_of_getLast?_eq_some hc⟩
    | cons w2 ws2 =>
      simp only [joinSpace] at hc
      have hne : ' ' :: joinSpace (w2 :: ws2) ≠ [] := by simp
      rw [List.getLast?_append_of_ne_nil w hne] at hc
      have hne2 := joinSpace_ne_nil w2 ws2 (h w2 (by simp))
      obtain ⟨d, rest, hj⟩ := List.exists_cons_of_ne_nil hne2
      rw [hj, List.getLast?_cons_cons, ← hj] at hc
      obtain ⟨v, hv, hcv⟩ := ih (fun v hv => h v (List.mem_cons_of_mem _ hv)) hc
      exact ⟨v, List.mem_cons_of_mem _ hv, hcv⟩

theorem plainName_joinSpace (ws : List Str) (h : ∀ w ∈ ws, ∀ c ∈ w, isAlnum c = true) :
    PlainName (joinSpace ws) := by
  intro c hc
  rcases mem_joinSpace ws c hc with h1 | ⟨w, hw, hcw⟩
  · exact Or.inr h1
  · exact Or.inl (h w hw c hcw)

theorem TrimSpace_joinSpace (ws : List Str)
    (h : ∀ w ∈ ws, w ≠ [] ∧ ∀ c ∈ w, isAlnum c = true) : TrimSpace (joinSpace ws) = joinSpace ws := by
  apply TrimSpace_id
  · intro c hc
    cases ws with
    | nil => simp [joinSpace] at hc
    | cons w ws =>
      rw [joinSpace_head w ws (h w (List.mem_cons_self _ _)).1] at hc
      exact isAlnum_not_isSpace c ((h w (List.mem_cons_self _ _)).2 c (List.mem_of_mem_head? hc))
  · intro c hc
    obtain ⟨w, hw, hcw⟩ := joinSpace_last ws (fun w hw => (h w hw).1) c hc
    exact isAlnum_not_isSpace c ((h w hw).2 c hcw)

theorem removeChar_plain (d : Char) (hd : isAlnum d = false) (hd' : d ≠ ' ') (s : Str)
    (hp : PlainName s) : removeChar d s = s := by
  unfold removeChar
  rw [List.filter_eq_self]
  intro c hc
  rcases hp c hc with h | h
  · simpa using isAlnum_ne c d h hd
  · rw [h]
    simpa using fun h' : ' ' = d => hd' h'.symm

theorem plainName_ascii (s : Str) (hp : PlainName s) :
    (s.all fun c => decide (c.toNat < 128)) = true := by
  rw [List.all_eq_true]
  intro c hc
  rcases hp c hc with h | h
  · rw [isAlnum_range] at h
    simp only [decide_eq_true_eq]
    omega
  · rw [h]
    decide

theorem caserString_plain (U : GoText) (s : Str) (hp : PlainName s) :
    caserString U s = titleLoop false false s := by
  unfold caserString
  rw [if_pos (plainName_ascii s hp)]

theorem titleLoop_blank (mw wm : Bool) (s : Str) :
    titleLoop mw wm (' ' :: s) = ' ' :: titleLoop false false s := by
  have h1 : isCased ' ' = false := by decide
  have h2 : isMid ' ' = false := by decide
  have h3 : isBreak ' ' = true := by decide
  simp only [titleLoop, h1, h2, h3, Bool.and_false, Bool.false_eq_true, if_false, if_true]

theorem titleLoop_word_blank (rest : Str) (w : Str) :
    ∀ (mw wm : Bool), titleLoop mw wm (w ++ ' ' :: rest) =
      titleLoop mw wm w ++ ' ' :: titleLoop false false rest := by
  induction w with
  | nil => intro mw wm; exact titleLoop_blank mw wm rest
  | cons c w ih =>
    intro mw wm
    simp only [List.cons_append, titleLoop, List.append_eq]
    split
    · rw [ih]
      rfl
    · rw [ih]
      rfl

theorem titleLoop_joinSpace (ws : List Str) (h : ∀ w ∈ ws, titleLoop false false w = w) :
    titleLoop false false (joinSpace ws) = joinSpace ws := by
  induction ws with
  | nil => rfl
  | cons w ws ih =>
    cases ws with
    | nil => exact h w (List.mem_singleton.2 rfl)
    | cons w2 ws2 =>
      simp only [joinSpace]
      rw [titleLoop_word_blank, h w (List.mem_cons_self _ _),
        ih (fun v hv => h v (List.mem_cons_of_mem _ hv))]

theorem plainName_sublist (s t : Str) (h : s.Sublist t) (hp : PlainName t) : PlainName s :=
  fun c hc => hp c (h.subset hc)

theorem plainName_deleteAll (r : Regex) (s : Str) (hp : PlainName s) :
    PlainName (r.deleteAll s) :=
  fun c hc => hp c (mem_deleteScan r s 0 false c hc)

theorem plainName_simplifyName (s : Str) (hp : PlainName s) : PlainName (simplifyName s) := by
  unfold simplifyName
  exact plainName_deleteAll _ _ (plainName_deleteAll _ _ (plainName_deleteAll _ _ hp))

theorem normalize_eq (U : GoText) (raw : Str) :
    normalize U raw =
      TrimSpace (removeChar '/' (caserString U (joinSpace (Fields (srReplace
        (pattern.deleteAll (simplifyName (removeChar '"' (TrimSpace raw))))))))) :=
  rfl

/-- C10, amended: in the normalised name of a raw name written with ASCII letters, digits
and blanks only, no word is a term of the eraser vocabulary, in any letter case. -/
theorem normalize_no_term_word (U : GoText) (raw : Str) (h : PlainName raw) :
    ∀ w ∈ Fields (normalize U raw), pattern.fullMatch w = false := by
  intro w hw
  rw [normalize_eq] at hw
  have hp1 : PlainName (TrimSpace raw) := plainName_sublist _ _ (TrimSpace_sublist raw) h
  have hp2 : PlainName (removeChar '"' (TrimSpace raw)) :=
    plainName_sublist _ _ (List.filter_sublist _) hp1
  have hp3 := plainName_simplifyName _ hp2
  have hp4 := plainName_deleteAll pattern _ hp3
  have hE := eraser_no_term _ hp3
  obtain ⟨hp5, hR⟩ := srReplace_plain _ hp4
  generalize srReplace (pattern.deleteAll (simplifyName (removeChar '"' (TrimSpace raw)))) = R
    at hw hp5 hR
  have hgood : ∀ v ∈ Fields R, v ≠ [] ∧ ∀ c ∈ v, isSpace c = false := fun v hv => Fields_good R v hv
  have hJ : Fields (joinSpace (Fields R)) = Fields R := Fields_joinSpace _ hgood
  have hp6 : PlainName (joinSpace (Fields R)) := by
    intro c hc
    rcases mem_joinSpace_Fields R c hc with h1 | h1
    · exact Or.inr h1
    · exact hp5 c h1
  rw [caserString_plain U _ hp6] at hw
  have hce := titleLoop_caseEq (joinSpace (Fields R)) false false
  have hp7 := plainName_caseEq hce hp6
  rw [removeChar_plain '/' (by decide) (by decide) _ hp7, Fields_TrimSpace] at hw
  obtain ⟨w0, hw0, hrel⟩ := forall₂_mem_right (Fields_caseEq hce) w hw
  rw [hJ] at hw0
  rw [fullMatch_caseEq pattern w0 w hrel]
  exact hE w0 (hR w0 hw0)

theorem normalize_no_term_word_witness :
    PlainName "The Linksys Group Inc".toList ∧
      ∀ w ∈ Fields (normalize plainText "The Linksys Group Inc".toList),
        pattern.fullMatch w = false :=
  ⟨by unfold PlainName; decide,
    normalize_no_term_word plainText _ (by unfold PlainName; decide)⟩

/-- C10 as stated fails on the raw name `Foo L.L.C.`: its normalised name is `Foo LLC`, in
which the eraser pattern matches the word `LLC`. A term of two words can come back even in a
name without punctuation: the normalised name of `a the s` is `A S`, a match of `a +s`. -/
theorem normalize_term_counterexample :
    normalize plainText "Foo L.L.C.".toList = "Foo LLC".toList ∧
      pattern.MatchString (normalize plainText "Foo L.L.C.".toList) = true ∧
      normalize plainText "a the s".toList = "A S".toList ∧
      pattern.MatchString (normalize plainText "a the s".toList) = true := by
  decide

theorem titleWord_head (w : Str) (h : TitleWord w) : w.head? ≠ some 'a' := by
  intro hh
  obtain ⟨hne, _, ht⟩ := h
  cases w with
  | nil => exact hne rfl
  | cons c w' =>
    simp only [List.head?_cons, Option.some.injEq] at hh
    subst hh
    revert ht
    have h1 : isCased 'a' = true := by decide
    simp only [titleLoop, h1, Bool.false_and, Bool.false_eq_true, if_false, if_true,
      List.cons.injEq]
    intro h2
    exact absurd h2.1 (by decide)

theorem srScan_joinSpace (ws : List Str) (h : ∀ w ∈ ws, TitleWord w) :
    replacerScan sr 0 (joinSpace ws) = joinSpace ws := by
  induction ws with
  | nil => rfl
  | cons w ws ih =>
    cases ws with
    | nil =>
      have := srScan_word [] w (h w (List.mem_singleton.2 rfl)).2.1
      simpa [replacerScan, joinSpace] using this
    | cons w2 ws2 =>
      have hrest : ∀ v ∈ w2 :: ws2, TitleWord v := fun v hv => h v (List.mem_cons_of_mem _ hv)
      have hp : PlainName (joinSpace (w2 :: ws2)) :=
        plainName_joinSpace _ (fun v hv => (hrest v hv).2.1)
      have ha : ∀ s2, joinSpace (w2 :: ws2) ≠ 'a' :: ' ' :: s2 := by
        intro s2 heq
        have hh := joinSpace_head w2 ws2 (hrest w2 (List.mem_cons_self _ _)).1
        rw [heq] at hh
        exact titleWord_head w2 (hrest w2 (List.mem_cons_self _ _)) hh.symm
      simp only [joinSpace]
      rw [srScan_word _ w (h w (List.mem_cons_self _ _)).2.1, srScan_blank _ hp ha, ih hrest]

/-- C8, amended: normalisation leaves a clean name unchanged. A clean name is made of words
of ASCII letters and digits, each in title case, joined by single blanks, and contains no
match of the three suffix expressions and of the eraser pattern. -/
theorem normalize_clean_fixed (U : GoText) (ws : List Str) (hw : ∀ w ∈ ws, TitleWord w)
    (h1 : llcRegex.MatchString (joinSpace ws) = false)
    (h2 : coRegex.MatchString (joinSpace ws) = false)
    (h3 : gmbhRegex.MatchString (joinSpace ws) = false)
    (h4 : pattern.MatchString (joinSpace ws) = false) :
    normalize U (joinSpace ws) = joinSpace ws ∧
      normalize U (normalize U (joinSpace ws)) = normalize U (joinSpace ws) := by
  have hgood : ∀ w ∈ ws, w ≠ [] ∧ ∀ c ∈ w, isAlnum c = true := fun w h => ⟨(hw w h).1, (hw w h).2.1⟩
  have hp : PlainName (joinSpace ws) := plainName_joinSpace ws (fun w h => (hw w h).2.1)
  have htrim := TrimSpace_joinSpace ws hgood
  have hfix : normalize U (joinSpace ws) = joinSpace ws := by
    rw [normalize_eq]
    simp only [htrim, removeChar_plain '"' (by decide) (by decide) _ hp, simplifyName,
      deleteAll_no_match _ _ h1, deleteAll_no_match _ _ h2, deleteAll_no_match _ _ h3,
      deleteAll_no_match _ _ h4, srReplace, srScan_joinSpace ws hw]
    rw [Fields_joinSpace ws (fun w h => ⟨(hw w h).1, fun c hc => isAlnum_not_isSpace c ((hw w h).2.1 c hc)⟩),
      caserString_plain U _ hp, titleLoop_joinSpace ws (fun w h => (hw w h).2.2),
      removeChar_plain '/' (by decide) (by decide) _ hp, htrim]
  exact ⟨hfix, by rw [hfix, hfix]⟩

theorem normalize_clean_fixed_witness :
    (∀ w ∈ ["Hewlett".toList, "Packard".toList], TitleWord w) ∧
      normalize plainText (joinSpace ["Hewlett".toList, "Packard".toList]) =
        joinSpace ["Hewlett".toList, "Packard".toList] ∧
      normalize plainText (normalize plainText (joinSpace ["Hewlett".toList, "Packard".toList])) =
        normalize plainText (joinSpace ["Hewlett".toList, "Packard".toList]) :=
  ⟨by unfold TitleWord; decide,
    normalize_clean_fixed plainText ["Hewlett".toList, "Packard".toList]
      (by unfold TitleWord; decide) (by decide) (by decide) (by decide) (by decide)⟩

/-- C8 as stated fails on the normalised name `Foo LLC` (the normalised name of the raw
name `Foo L.L.C.`): normalising it again gives `Foo`. -/
theorem normalize_idempotent_counterexample :
    normalize plainText "Foo L.L.C.".toList = "Foo LLC".toList ∧
      normalize plainText (normalize plainText "Foo L.L.C.".toList) = "Foo".toList ∧
      normalize plainText (normalize plainText "Foo L.L.C.".toList) ≠
        normalize plainText "Foo L.L.C.".toList := by
  decide

theorem run_endsAtEnd (r : Regex) :
    ∀ (p : Bool) (s : Str) (p' : Bool) (rem : Str), r.endsAtEnd = true →
      (p', rem) ∈ r.run p s → rem = [] := by
  induction r with
  | seq a b _ ihb =>
    intro p s p' rem he h
    simp only [Regex.run, List.mem_flatMap] at h
    obtain ⟨⟨p1, s1⟩, -, h2⟩ := h
    exact ihb _ _ _ _ (by simpa [Regex.endsAtEnd] using he) h2
  | alt a b iha ihb =>
    intro p s p' rem he h
    simp only [Regex.endsAtEnd, Bool.and_eq_true] at he
    simp only [Regex.run, List.mem_append] at h
    rcases h with h | h
    · exact iha _ _ _ _ he.1 h
    · exact ihb _ _ _ _ he.2 h
  | endText =>
    intro p s p' rem _ h
    simp only [Regex.run] at h
    split at h
    · rename_i hb
      simp only [List.mem_singleton, Prod.mk.injEq] at h
      rw [h.2]
      exact List.isEmpty_iff.1 hb
    · simp at h
  | eps => intro p s p' rem he; simp [Regex.endsAtEnd] at he
  | atom a => intro p s p' rem he; simp [Regex.endsAtEnd] at he
  | opt a _ => intro p s p' rem he; simp [Regex.endsAtEnd] at he
  | star a => intro p s p' rem he; simp [Regex.endsAtEnd] at he
  | plus a => intro p s p' rem he; simp [Regex.endsAtEnd] at he
  | wordBoundary => intro p s p' rem he; simp [Regex.endsAtEnd] at he

theorem deleteScan_skip_all (r : Regex) (s : Str) :
    ∀ (k : Nat) (p : Bool), s.length ≤ k → r.deleteScan k p s = [] := by
  induction s with
  | nil => intro k p _; simp [Regex.deleteScan]
  | cons c s ih =>
    intro k p hk
    cases k with
    | zero => simp at hk
    | succ k =>
      simp only [Regex.deleteScan]
      exact ih k _ (by simpa using hk)

/-- An expression anchored at the end of the text deletes at most one match, a suffix. -/
theorem deleteScan_endsAtEnd (r : Regex) (he : r.endsAtEnd = true) (s : Str) :
    ∀ p, ∃ m, s = r.deleteScan 0 p s ++ m ∧ (m = [] ∨ r.matchesAll m) := by
  induction s with
  | nil => intro p; exact ⟨[], by simp [Regex.deleteScan], Or.inl rfl⟩
  | cons c s ih =>
    intro p
    cases hm : r.run p (c :: s) with
    | nil =>
      obtain ⟨m, hs, hmm⟩ := ih (isWordChar c)
      refine ⟨m, ?_, hmm⟩
      simp only [Regex.deleteScan, Regex.matchAt, hm, List.head?_nil, Option.map_none',
        List.cons_append]
      rw [← hs]
    | cons x xs =>
      obtain ⟨p', rem⟩ := x
      have hrem : rem = [] :=
        run_endsAtEnd r p (c :: s) p' rem he (by rw [hm]; exact List.mem_cons_self _ _)
      subst hrem
      refine ⟨c :: s, ?_, Or.inr ⟨p, ?_⟩⟩
      · simp only [Regex.deleteScan, Regex.matchAt, hm, List.head?_cons, Option.map_some',
          List.length_nil, Nat.zero_le, if_true, Nat.sub_zero]
        rw [deleteScan_skip_all r s _ _ (Nat.le_refl _)]
        rfl
      · rw [hm]
        simp

theorem llcRegex_endsAtEnd : llcRegex.endsAtEnd = true := by decide

theorem coRegex_endsAtEnd : coRegex.endsAtEnd = true := by decide

theorem gmbhRegex_endsAtEnd : gmbhRegex.endsAtEnd = true := by decide

/-- What `simplifyName` takes away: one suffix at most for each of its three expressions, the
one of `llcRegex` being the last of the name. -/
theorem simplifyName_split (name : Str) :
    ∃ m1 m2 m3, name = simplifyName name ++ m3 ++ m2 ++ m1 ∧
      (m1 = [] ∨ llcRegex.matchesAll m1) ∧ (m2 = [] ∨ coRegex.matchesAll m2) ∧
      (m3 = [] ∨ gmbhRegex.matchesAll m3) := by
  obtain ⟨m1, h1, hm1⟩ := deleteScan_endsAtEnd llcRegex llcRegex_endsAtEnd name false
  obtain ⟨m2, h2, hm2⟩ :=
    deleteScan_endsAtEnd coRegex coRegex_endsAtEnd (llcRegex.deleteScan 0 false name) false
  obtain ⟨m3, h3, hm3⟩ :=
    deleteScan_endsAtEnd gmbhRegex gmbhRegex_endsAtEnd
      (coRegex.deleteScan 0 false (llcRegex.deleteScan 0 false name)) false
  refine ⟨m1, m2, m3, ?_, hm1, hm2, hm3⟩
  have : simplifyName name =
      gmbhRegex.deleteScan 0 false (coRegex.deleteScan 0 false (llcRegex.deleteScan 0 false name)) :=
    rfl
  rw [this, ← h3, ← h2, ← h1]

/-- C14: on an input of a header row and no data row the builder returns the table with no
entry and no vendor name. -/
theorem header_only_empty_table (U : GoText) (header : List Str) :
    newTemplateData U [.record header] = some ⟨[], []⟩ := by
  rfl

/-- C15 fails on the names `Zinc` and `Cisco`: neither ends with a suffix word standing as a
token of its own, and `simplifyName` cuts them to `Z` and `Cis`. -/
theorem simplifyName_cuts_inside_word :
    simplifyName "Zinc".toList = "Z".toList ∧ simplifyName "Cisco".toList = "Cis".toList := by
  decide

/-- C16 as stated fails on the name `Foo co inc`: one call removes ` inc` (first group) and
then ` co` (second group), and what it removed is not a match of any one of the three
expressions. -/
theorem simplifyName_two_groups_counterexample :
    simplifyName "Foo co inc".toList = "Foo".toList ∧
      llcRegex.fullMatch " co inc".toList = false ∧ coRegex.fullMatch " co inc".toList = false ∧
      gmbhRegex.fullMatch " co inc".toList = false := by
  decide

/-- C16, amended: one call of `simplifyName` removes at most one match of each of the three
expressions, in the order `llcRegex`, `coRegex`, `gmbhRegex`, each on what the one before
left: the name is the result followed by what `gmbhRegex`, `coRegex` and `llcRegex` removed. -/
theorem simplifyName_one_per_group (name : Str) :
    ∃ m1 m2 m3, name = simplifyName name ++ m3 ++ m2 ++ m1 ∧
      (m1 = [] ∨ llcRegex.matchesAll m1) ∧ (m2 = [] ∨ coRegex.matchesAll m2) ∧
      (m3 = [] ∨ gmbhRegex.matchesAll m3) :=
  simplifyName_split name

/-- C20: the result of `simplifyName` is a prefix of the name, and not longer than the
name. -/
theorem simplifyName_prefix (name : Str) :
    simplifyName name <+: name ∧ (simplifyName name).length ≤ name.length := by
  obtain ⟨m1, m2, m3, h, -⟩ := simplifyName_split name
  have hp : simplifyName name <+: name :=
    ⟨m3 ++ m2 ++ m1, by simp only [List.append_assoc] at h ⊢; exact h.symm⟩
  exact ⟨hp, hp.length_le⟩

/-- C18 fails on the raw name `x  ,  y`: the comma becomes a sentinel that stands alone
between two blanks, and its removal after the collapse leaves the two blanks side by side. -/
theorem normalize_double_blank :
    normalize plainText "x  ,  y".toList = "X  Y".toList := by
  decide

/-- C19: on a successful run every vendor name is the vendor of an entry, there are no more
vendor names than entries, and the vendor names are exactly the vendors of the entries. -/
theorem vendors_no_orphan (U : GoText) (input : List ReadResult) (td : templateData)
    (h : newTemplateData U input = some td) :
    (∀ v ∈ td.Vendors, ∃ e ∈ td.Entries, e.Vendor = v) ∧
      td.Vendors.length ≤ td.Entries.length ∧
      ∀ v, v ∈ td.Vendors ↔ v ∈ td.Entries.map fun e => e.Vendor := by
  obtain ⟨st, -, -, hinv, -, hv, -, hperm⟩ := newTemplateData_some U input td h
  have hmem : ∀ v, v ∈ td.Vendors ↔ v ∈ td.Entries.map fun e => e.Vendor := by
    intro v
    rw [hv, hinv.vend, distinctInOrder_mem, (hperm.map _).mem_iff]
  refine ⟨?_, ?_, hmem⟩
  · intro v hvm
    obtain ⟨e, he, hev⟩ := List.mem_map.1 ((hmem v).1 hvm)
    exact ⟨e, he, hev⟩
  · have hsub : (distinctInOrder (st.entries.map fun e => e.Vendor)).length ≤
        (st.entries.map fun e => e.Vendor).length := by
      generalize st.entries.map (fun e => e.Vendor) = l
      induction l with
      | nil => simp [distinctInOrder]
      | cons x xs ih =>
        simp only [distinctInOrder, List.length_cons]
        exact Nat.succ_le_succ (le_trans (List.length_filter_le _ _) ih)
    rw [hv, hinv.vend, hperm.length_eq]
    simpa using hsub

theorem vendors_no_orphan_witness :
    newTemplateData plainText sampleInput = some sampleTable ∧
      (∀ v ∈ sampleTable.Vendors, ∃ e ∈ sampleTable.Entries, e.Vendor = v) ∧
      sampleTable.Vendors.length ≤ sampleTable.Entries.length ∧
      ∀ v, v ∈ sampleTable.Vendors ↔ v ∈ sampleTable.Entries.map fun e => e.Vendor :=
  ⟨sample_run, vendors_no_orphan plainText sampleInput sampleTable sample_run⟩

theorem char_le_iff (a b : Char) : a ≤ b ↔ a.toNat ≤ b.toNat := by
  rfl

theorem hexDigit_eq (c : Char) :
    hexDigit c =
      if 48 ≤ c.toNat ∧ c.toNat ≤ 57 then some (c.toNat - 48)
      else if 97 ≤ c.toNat ∧ c.toNat ≤ 102 then some (c.toNat - 97 + 10)
      else if 65 ≤ c.toNat ∧ c.toNat ≤ 70 then some (c.toNat - 65 + 10)
      else none := by
  unfold hexDigit
  simp only [char_le_iff]
  rfl

theorem isHex_iff (c : Char) :
    isHex c = true ↔ (48 ≤ c.toNat ∧ c.toNat ≤ 57) ∨ (97 ≤ c.toNat ∧ c.toNat ≤ 102) ∨
      (65 ≤ c.toNat ∧ c.toNat ≤ 70) := by
  unfold isHex
  rw [hexDigit_eq]
  split
  · simp; omega
  · split
    · simp; omega
    · split
      · simp; omega
      · simp; omega

theorem isLowerHex_iff (c : Char) :
    isLowerHex c = true ↔ (48 ≤ c.toNat ∧ c.toNat ≤ 57) ∨ (97 ≤ c.toNat ∧ c.toNat ≤ 102) := by
  simp [isLowerHex]

theorem isLowerHex_lower (c : Char) (h : isHex c = true) : isLowerHex (lower c) = true := by
  rw [isHex_iff] at h
  rw [isLowerHex_iff, lower_toNat]
  split <;> omega

theorem hexDigit_lowerHex (c : Char) (h : isLowerHex c = true) :
    ∃ d, hexDigit c = some d ∧ d < 16 ∧
      ((48 ≤ c.toNat ∧ c.toNat ≤ 57 ∧ d + 48 = c.toNat) ∨
        (97 ≤ c.toNat ∧ c.toNat ≤ 102 ∧ d + 87 = c.toNat)) := by
  rw [isLowerHex_iff] at h
  rw [hexDigit_eq]
  rcases h with h | h
  · rw [if_pos h]
    exact ⟨_, rfl, by omega, Or.inl ⟨h.1, h.2, by omega⟩⟩
  · have h1 : ¬ (48 ≤ c.toNat ∧ c.toNat ≤ 57) := by omega
    rw [if_neg h1, if_pos h]
    exact ⟨_, rfl, by omega, Or.inr ⟨h.1, h.2, by omega⟩⟩

theorem parseDigits_inj (s1 : Str) :
    ∀ (s2 : Str) (n1 n2 v : Nat), s1.length = s2.length →
      (∀ c ∈ s1, isLowerHex c = true) → (∀ c ∈ s2, isLowerHex c = true) →
      parseDigits n1 s1 = some v → parseDigits n2 s2 = some v → n1 = n2 ∧ s1 = s2 := by
  induction s1 with
  | nil =>
    intro s2 n1 n2 v hl _ _ h1 h2
    have : s2 = [] := List.length_eq_zero.1 hl.symm
    subst this
    simp only [parseDigits, Option.some.injEq] at h1 h2
    exact ⟨by omega, rfl⟩
  | cons c1 t1 ih =>
    intro s2 n1 n2 v hl hs1 hs2 h1 h2
    cases s2 with
    | nil => simp at hl
    | cons c2 t2 =>
      obtain ⟨d1, hd1, hlt1, hc1⟩ := hexDigit_lowerHex c1 (hs1 c1 (List.mem_cons_self _ _))
      obtain ⟨d2, hd2, hlt2, hc2⟩ := hexDigit_lowerHex c2 (hs2 c2 (List.mem_cons_self _ _))
      simp only [parseDigits, hd1, hd2, Option.some_bind] at h1 h2
      obtain ⟨hn, ht⟩ := ih t2 _ _ v (by simpa using hl)
        (fun c hc => hs1 c (List.mem_cons_of_mem _ hc))
        (fun c hc => hs2 c (List.mem_cons_of_mem _ hc)) h1 h2
      have hd : d1 = d2 := by omega
      refine ⟨by omega, ?_⟩
      rw [ht]
      congr 1
      apply char_eq_of_toNat
      omega

theorem ParseInt_lowerHex (s : Str) (hs : ∀ c ∈ s, isLowerHex c = true) (a : Int)
    (h : ParseInt s = some a) : ∃ un : Nat, parseDigits 0 s = some un ∧ a = (un : Int) := by
  cases s with
  | nil => simp [ParseInt] at h
  | cons c t =>
    have hc := (isLowerHex_iff c).1 (hs c (List.mem_cons_self _ _))
    have hp : c ≠ '+' := by
      intro hh
      rw [hh] at hc
      revert hc
      decide
    have hm : c ≠ '-' := by
      intro hh
      rw [hh] at hc
      revert hc
      decide
    unfold ParseInt at h
    split at h
    · rename_i neg digits heq
      split at heq
      · rename_i t' hcons
        simp only [List.cons.injEq] at hcons
        exact absurd hcons.1 hp
      · rename_i t' hcons
        simp only [List.cons.injEq] at hcons
        exact absurd hcons.1 hm
      · simp only [Prod.mk.injEq] at heq
        obtain ⟨rfl, rfl⟩ := heq
        simp only [List.isEmpty_cons, Bool.false_eq_true, if_false] at h
        cases hpd : parseDigits 0 (c :: t) with
        | none => simp [hpd] at h
        | some un =>
          simp only [hpd, Option.some_bind] at h
          split at h
          · simp only [Option.some.injEq] at h
            exact ⟨un, rfl, h.symm⟩
          · simp at h

theorem ToLower_hex (U : GoText) (f : Str) (hf : ∀ c ∈ f, isHex c = true) :
    (ToLower U f).length = f.length ∧ ∀ c ∈ ToLower U f, isLowerHex c = true := by
  refine ⟨by simp [ToLower], ?_⟩
  intro c hc
  simp only [ToLower, List.mem_map] at hc
  obtain ⟨d, hd, rfl⟩ := hc
  have hdh := hf d hd
  have hlt : d.toNat < 128 := by
    rw [isHex_iff] at hdh
    omega
  rw [if_pos hlt]
  exact isLowerHex_lower d hdh

theorem records_key_origin (U : GoText) (rows : List ReadResult) (o : Str)
    (h : o ∈ (records U rows).map Prod.fst) :
    ∃ r ∈ rows, ∃ f, rawOuiField r = some f ∧ o = ToLower U f := by
  simp only [records, List.mem_map, List.mem_filterMap] at h
  obtain ⟨q, ⟨r, hr, hq⟩, rfl⟩ := h
  have ho := (recordOf_fields U r q hq).1
  cases r with
  | error => simp [ouiField] at ho
  | record fs =>
    simp only [ouiField, Option.map_eq_some'] at ho
    obtain ⟨f, hf, hfo⟩ := ho
    exact ⟨_, hr, f, hf, hfo.symm⟩

theorem entries_oui_nodup (U : GoText) (input : List ReadResult) (td : templateData)
    (h : newTemplateData U input = some td) : (td.Entries.map fun e => e.OUI).Nodup := by
  obtain ⟨st, -, -, hinv, -, -, -, hperm⟩ := newTemplateData_some U input td h
  have hnd : (st.entries.map fun e => e.OUI).Nodup := by
    have := firstPerKey_nodup (records U input.tail)
    rw [← hinv.ents] at this
    simpa [List.map_map, Function.comp_def] using this
  exact ((hperm.map _).nodup_iff).2 hnd

theorem entries_oui_origin (U : GoText) (input : List ReadResult) (td : templateData)
    (h : newTemplateData U input = some td) (e : entry) (he : e ∈ td.Entries) :
    ∃ r ∈ input.tail, ∃ f, rawOuiField r = some f ∧ e.OUI = ToLower U f := by
  obtain ⟨st, -, -, hinv, -, -, -, hperm⟩ := newTemplateData_some U input td h
  apply records_key_origin
  rw [← entries_keys _ st hinv]
  exact List.mem_map_of_mem (fun e : entry => e.OUI) (hperm.mem_iff.1 he)

/-- C17, amended: on a successful run over rows whose OUI fields all have exactly six
hexadecimal digits, the entries are in strictly ascending order of the numeric value of
their OUI, so no two of them have the same value. -/
theorem entries_strictly_ascending (U : GoText) (input : List ReadResult) (td : templateData)
    (h : newTemplateData U input = some td)
    (hfmt : ∀ r ∈ input.tail, ∀ f, rawOuiField r = some f →
      f.length = 6 ∧ ∀ c ∈ f, isHex c = true) :
    ∀ (i j : Nat) (ei ej : entry), i < j → td.Entries[i]? = some ei →
      td.Entries[j]? = some ej →
        ∃ a b, OUI.Int ei.OUI = some a ∧ OUI.Int ej.OUI = some b ∧ a < b := by
  intro i j ei ej hij hi hj
  obtain ⟨a, b, ha, hb, hab⟩ := entries_ascending U input td h i j ei ej hij hi hj
  refine ⟨a, b, ha, hb, lt_of_le_of_ne hab ?_⟩
  intro heq
  subst heq
  obtain ⟨hli, hgi⟩ := List.getElem?_eq_some_iff.1 hi
  obtain ⟨hlj, hgj⟩ := List.getElem?_eq_some_iff.1 hj
  have hne : ei.OUI ≠ ej.OUI := by
    have hnd := entries_oui_nodup U input td h
    have hpw : td.Entries.Pairwise fun x y => x.OUI ≠ y.OUI := by
      have := List.pairwise_map.1 hnd
      exact this
    have := List.pairwise_iff_getElem.1 hpw i j hli hlj hij
    rwa [hgi, hgj] at this
  obtain ⟨ri, hri, fi, hfi, hoi⟩ :=
    entries_oui_origin U input td h ei (hgi ▸ List.getElem_mem hli)
  obtain ⟨rj, hrj, fj, hfj, hoj⟩ :=
    entries_oui_origin U input td h ej (hgj ▸ List.getElem_mem hlj)
  obtain ⟨hleni, hhexi⟩ := hfmt ri hri fi hfi
  obtain ⟨hlenj, hhexj⟩ := hfmt rj hrj fj hfj
  obtain ⟨hli', hlowi⟩ := ToLower_hex U fi hhexi
  obtain ⟨hlj', hlowj⟩ := ToLower_hex U fj hhexj
  rw [← hoi] at hli' hlowi
  rw [← hoj] at hlj' hlowj
  obtain ⟨ui, hui, hai⟩ := ParseInt_lowerHex ei.OUI hlowi a ha
  obtain ⟨uj, huj, haj⟩ := ParseInt_lowerHex ej.OUI hlowj a hb
  have huij : ui = uj := by
    have : (ui : Int) = (uj : Int) := by rw [← hai, ← haj]
    exact_mod_cast this
  subst huij
  exact hne (parseDigits_inj ei.OUI ej.OUI 0 0 ui (by omega) hlowi hlowj hui huj).2

theorem sample_format :
    ∀ r ∈ sampleInput.tail, ∀ f, rawOuiField r = some f →
      f.length = 6 ∧ ∀ c ∈ f, isHex c = true := by
  intro r hr f hf
  simp only [sampleInput, List.tail_cons, List.mem_cons, List.mem_singleton,
    List.not_mem_nil, or_false] at hr
  rcases hr with rfl | rfl | rfl <;>
    · simp only [row, rawOuiField, List.getElem?_cons_succ, List.getElem?_cons_zero,
        Option.some.injEq] at hf
      subst hf
      decide

theorem entries_strictly_ascending_witness :
    newTemplateData plainText sampleInput = some sampleTable ∧
      (∀ r ∈ sampleInput.tail, ∀ f, rawOuiField r = some f →
        f.length = 6 ∧ ∀ c ∈ f, isHex c = true) ∧
      ∀ (i j : Nat) (ei ej : entry), i < j → sampleTable.Entries[i]? = some ei →
        sampleTable.Entries[j]? = some ej →
          ∃ a b, OUI.Int ei.OUI = some a ∧ OUI.Int ej.OUI = some b ∧ a < b :=
  ⟨sample_run, sample_format,
    entries_strictly_ascending plainText sampleInput sampleTable sample_run sample_format⟩

theorem tie_run : newTemplateData plainText tieInput = some tieTable := by decide

/-- C17 as stated fails on `tieInput`: the OUI strings `0b` and `00b` are different, both
are kept, and both have the numeric value 11. -/
theorem entries_tie_counterexample :
    ¬ ∀ td, newTemplateData plainText tieInput = some td →
      ∀ e1 ∈ td.Entries, ∀ e2 ∈ td.Entries, e1 ≠ e2 → OUI.Int e1.OUI ≠ OUI.Int e2.OUI := by
  intro h
  exact h tieTable tie_run ⟨"0b".toList, 0, "X".toList⟩ (by decide)
    ⟨"00b".toList, 1, "Y".toList⟩ (by decide) (by decide) (by decide)

theorem registry_run : newTemplateData plainText registryInput = some registryTable := by
  decide

theorem blanksToUnderscores_of_no_blank (v : Str) (h : ' ' ∉ v) :
    blanksToUnderscores v = v := by
  induction v with
  | nil => rfl
  | cons c t ih =>
    have hc : c ≠ ' ' := fun e => h (by simp [e])
    have ht : ' ' ∉ t := fun m => h (List.mem_cons_of_mem c m)
    have ih2 := ih ht
    unfold blanksToUnderscores at ih2 ⊢
    simp only [List.map_cons, if_neg hc, ih2]

/-- C11 as stated fails on the table the generator builds from the registry row of `0005EE`:
the name looked up is `Vanderbilt International Swe`, with blanks, and `VendorWithMAC`
returns `Vanderbilt_International_Swe_01:02:03`, as `TestVendorWithMAC` expects, which is not
that name followed by an underscore and the last three bytes. -/
theorem vendorWithMAC_blanks_counterexample :
    newTemplateData plainText registryInput = some registryTable ∧
      VendorFromMAC plainText registryTable ⟨0x00, 0x05, 0xee, 0x01, 0x02, 0x03⟩ =
        some "Vanderbilt International Swe".toList ∧
      VendorWithMAC plainText registryTable ⟨0x00, 0x05, 0xee, 0x01, 0x02, 0x03⟩ =
        some "Vanderbilt_International_Swe_01:02:03".toList ∧
      VendorWithMAC plainText registryTable ⟨0x00, 0x05, 0xee, 0x01, 0x02, 0x03⟩ ≠
        some ("Vanderbilt International Swe".toList ++
          '_' :: macSuffix ⟨0x00, 0x05, 0xee, 0x01, 0x02, 0x03⟩) := by
  decide

/-- C11, amended: if the vendor name looked up for the first three bytes is found and not
empty, `VendorWithMAC` returns it with every blank written as an underscore, followed by an
underscore and the last three bytes as two-digit lowercase hexadecimal numbers between
colons, which is the name itself followed by that suffix when the name has no blank; if the
name is not found or empty, it returns the empty string. -/
theorem vendorWithMAC_format (U : GoText) (td : templateData) (mac : HardwareAddr) (v : Str)
    (h : VendorFromMAC U td mac = some v) :
    (v ≠ [] →
        VendorWithMAC U td mac = some (blanksToUnderscores v ++ '_' :: macSuffix mac)) ∧
      (v ≠ [] → ' ' ∉ v → VendorWithMAC U td mac = some (v ++ '_' :: macSuffix mac)) ∧
      (v = [] → VendorWithMAC U td mac = some []) := by
  have hmain : v ≠ [] →
      VendorWithMAC U td mac = some (blanksToUnderscores v ++ '_' :: macSuffix mac) := by
    intro hne
    unfold VendorWithMAC
    rw [h]
    have : v.isEmpty = false := by
      cases v with
      | nil => exact absurd rfl hne
      | cons c t => rfl
    simp [this, hne]
  refine ⟨hmain, ?_, ?_⟩
  · intro hne hb
    rw [hmain hne, blanksToUnderscores_of_no_blank v hb]
  · intro he
    unfold VendorWithMAC
    rw [h]
    simp [he]

theorem vendorWithMAC_format_witness :
    VendorFromMAC plainText registryTable ⟨0x00, 0x05, 0xee, 0x01, 0x02, 0x03⟩ =
        some "Vanderbilt International Swe".toList ∧
      VendorWithMAC plainText registryTable ⟨0x00, 0x05, 0xee, 0x01, 0x02, 0x03⟩ =
        some "Vanderbilt_International_Swe_01:02:03".toList ∧
      VendorFromMAC plainText registryTable ⟨0x00, 0x00, 0x0f, 0x01, 0x02, 0x03⟩ =
        some "Next".toList ∧
      VendorWithMAC plainText registryTable ⟨0x00, 0x00, 0x0f, 0x01, 0x02, 0x03⟩ =
        some "Next_01:02:03".toList :=
  ⟨by decide,
    (vendorWithMAC_format plainText registryTable ⟨0x00, 0x05, 0xee, 0x01, 0x02, 0x03⟩
      "Vanderbilt International Swe".toList (by decide)).1 (by decide),
    by decide,
    (vendorWithMAC_format plainText registryTable ⟨0x00, 0x00, 0x0f, 0x01, 0x02, 0x03⟩
      "Next".toList (by decide)).2.1 (by decide) (by decide)⟩

theorem ToLower_map_congr (U : GoText) (g : Char → Char) (s : Str)
    (hd : ∀ c, (g c != ':' && g c != '-') = (c != ':' && c != '-'))
    (hl : ∀ c, (if (g c).toNat < 128 then lower (g c) else U.toLowerRune (g c)) =
      if c.toNat < 128 then lower c else U.toLowerRune c) :
    ToLower U ((s.map g).filter fun c => c != ':' && c != '-') =
      ToLower U (s.filter fun c => c != ':' && c != '-') := by
  induction s with
  | nil => rfl
  | cons c s ih =>
    simp only [List.map_cons, List.filter_cons, hd c]
    split
    · simp only [ToLower, List.map_cons, hl c] at ih ⊢
      rw [ih]
    · exact ih

theorem ouiKey_lowerHexLetters (U : GoText) (s : Str) :
    ouiKey U (lowerHexLetters s) = ouiKey U s := by
  unfold ouiKey lowerHexLetters
  rw [ToLower_map_congr U _ s]
  · intro c
    split
    · rename_i h
      have h1 : c ≠ ':' := fun hc => by rw [hc] at h; revert h; decide
      have h2 : c ≠ '-' := fun hc => by rw [hc] at h; revert h; decide
      have h3 : lower c ≠ ':' := fun hc => by
        have := lower_toNat c
        rw [hc, if_pos (by omega)] at this
        have e : (':' : Char).toNat = 58 := rfl
        omega
      have h4 : lower c ≠ '-' := fun hc => by
        have := lower_toNat c
        rw [hc, if_pos (by omega)] at this
        have e : ('-' : Char).toNat = 45 := rfl
        omega
      rw [bne_iff_ne.2 h1, bne_iff_ne.2 h2, bne_iff_ne.2 h3, bne_iff_ne.2 h4]
    · rfl
  · intro c
    split
    · rename_i h
      have hl := lower_toNat c
      rw [if_pos (by omega)] at hl
      have h1 : (lower c).toNat < 128 := by omega
      have h2 : c.toNat < 128 := by omega
      rw [if_pos h1, if_pos h2]
      apply char_eq_of_toNat
      rw [lower_toNat, if_neg (by omega)]
    · rfl

theorem ouiKey_upperHexLetters (U : GoText) (s : Str) :
    ouiKey U (upperHexLetters s) = ouiKey U s := by
  unfold ouiKey upperHexLetters
  rw [ToLower_map_congr U _ s]
  · intro c
    split
    · rename_i h
      have h1 : c ≠ ':' := fun hc => by rw [hc] at h; revert h; decide
      have h2 : c ≠ '-' := fun hc => by rw [hc] at h; revert h; decide
      have h3 : upper c ≠ ':' := fun hc => by
        have := upper_toNat c
        rw [hc, if_pos (by omega)] at this
        have e : (':' : Char).toNat = 58 := rfl
        omega
      have h4 : upper c ≠ '-' := fun hc => by
        have := upper_toNat c
        rw [hc, if_pos (by omega)] at this
        have e : ('-' : Char).toNat = 45 := rfl
        omega
      rw [bne_iff_ne.2 h1, bne_iff_ne.2 h2, bne_iff_ne.2 h3, bne_iff_ne.2 h4]
    · rfl
  · intro c
    split
    · rename_i h
      have hu := upper_toNat c
      rw [if_pos (by omega)] at hu
      have h1 : (upper c).toNat < 128 := by omega
      have h2 : c.toNat < 128 := by omega
      rw [if_pos h1, if_pos h2]
      apply char_eq_of_toNat
      rw [lower_toNat, lower_toNat, hu, if_pos (by omega), if_neg (by omega)]
      omega
    · rfl

/-- C12: the lookup `Vendor` gives the same result for a key string and for the key string
with its hexadecimal letters lowercased, or uppercased. -/
theorem vendor_case_insensitive (U : GoText) (td : templateData) (s : Str) :
    Vendor U td (lowerHexLetters s) = Vendor U td s ∧
      Vendor U td (upperHexLetters s) = Vendor U td s := by
  unfold Vendor
  rw [ouiKey_lowerHexLetters, ouiKey_upperHexLetters]
  exact ⟨rfl, rfl⟩

/-- C13: for a key string with fewer than six hexadecimal digits after its delimiters are
stripped, `Vendor` returns the empty string, without an error. -/
theorem vendor_short_key (U : GoText) (td : templateData) (s : Str)
    (h : (keyHexDigits U s).length < 6) : Vendor U td s = some [] := by
  have hk : ouiKey U s = none := by
    unfold ouiKey
    simp only
    split
    · rename_i hc
      exfalso
      obtain ⟨hlen, hall⟩ := hc
      have hsub : ((ToLower U (s.filter fun c => c != ':' && c != '-')).take 6).filter isLowerHex =
          (ToLower U (s.filter fun c => c != ':' && c != '-')).take 6 :=
        List.filter_eq_self.2 (List.all_eq_true.1 hall)
      have hle : (((ToLower U (s.filter fun c => c != ':' && c != '-')).take 6).filter
          isLowerHex).length ≤ (keyHexDigits U s).length :=
        ((List.take_sublist 6 _).filter isLowerHex).length_le
      rw [hsub, hlen] at hle
      omega
    · rfl
  unfold Vendor
  rw [hk]

theorem vendor_short_key_witness :
    (keyHexDigits plainText "ff:ff".toList).length < 6 ∧
      Vendor plainText registryTable "ff:ff".toList = some [] :=
  ⟨by decide, vendor_short_key plainText registryTable "ff:ff".toList (by decide)⟩

end Oui
